import Mathlib

/-!
Verification of the linuiz kernel core against its specification.

Shallow embedding of the kernel subsystems referenced by the claims:
physical frame manager (`src/kernel/src/mem/pmm.rs`), kernel allocator
(`src/kernel/src/mem/alloc.rs`), page-table mapper
(`src/kernel/src/mem/mapper.rs`), scheduler
(`src/kernel/src/task/scheduling.rs`), interrupt descriptor table
(`src/kernel/src/arch/x86_64/structures/idt/mod.rs`), klog syscall gate
(`src/kernel/src/interrupts/syscall.rs`), stopwatch
(`src/kernel/src/time/stopwatch.rs`), local timer
(`src/kernel/src/time/local_timer/x86_64.rs`), and the x2APIC interrupt
command (`src/kernel/src/arch/x86_64/devices/x2apic/interrupt_command.rs`).

Machine integers are modelled as `Nat` with explicit bounds where overflow
matters; fallible code returns `Except`; panics are modelled as `Except`
errors. Frames are identified by their frame index (the physical address
shifted right by the page shift), matching `Address<Frame>::index()` in
`libsys`.
-/

namespace Linuiz

/-- Page shift from `libsys` (4 KiB pages). -/
def pageShiftNum : Nat := 12

/-- Page size in bytes from `libsys::page_size()`. -/
def pageSize : Nat := 4096

/-- Entries per page table from `libsys::table_index_size()`. -/
def tableIndexSize : Nat := 512

/-! ## Physical memory manager (`mem/pmm.rs`)

The frame table is a bit slice, one bit per frame, `true` = locked.
`totalFrames` is the published frame count; the slice may be longer
(padding bits, set `true` during construction). -/

/-- Error type of `pmm::Error`. -/
inductive PmmError where
  | noneFree
  | invalidAlignment
  | outOfBounds (idx : Nat)
  | notFree (idx : Nat)
  | notLocked (idx : Nat)
deriving Repr, DecidableEq

/-- State of the `PhysicalMemoryManager` singleton: the frame bitmap and
the total frame count computed at init. -/
structure FrameState where
  bits : List Bool
  totalFrames : Nat
deriving Repr, DecidableEq

/-- Reads a bit of the frame table; out-of-slice reads default to `true`
(locked), which the real code never performs. -/
def FrameState.get (s : FrameState) (i : Nat) : Bool := s.bits.getD i true

/-- Number of set (locked) bits in the frame table. -/
def popcount (s : FrameState) : Nat := s.bits.count true

/-- Models `PhysicalMemoryManager::lock_frame`: bounds check against
`total_frames`, then the bit must be clear before it is set. -/
def lockFrame (s : FrameState) (idx : Nat) : Except PmmError FrameState :=
  if idx < s.totalFrames then
    if s.bits.getD idx true = false then
      .ok { s with bits := s.bits.set idx true }
    else
      .error (.notFree idx)
  else
    .error (.outOfBounds idx)

/-- Models `PhysicalMemoryManager::free_frame`: bounds check against
`total_frames`, then the bit must be set before it is cleared. -/
def freeFrame (s : FrameState) (idx : Nat) : Except PmmError FrameState :=
  if idx < s.totalFrames then
    if s.bits.getD idx true = true then
      .ok { s with bits := s.bits.set idx false }
    else
      .error (.notLocked idx)
  else
    .error (.outOfBounds idx)

/-- Index of the first clear bit of the slice (`BitSlice::first_zero`). -/
def firstZero : List Bool → Option Nat
  | [] => none
  | false :: _ => some 0
  | true :: rest => (firstZero rest).map (· + 1)

/-- Models `PhysicalMemoryManager::next_frame`: set the first clear bit and
return its index. -/
def nextFrame (s : FrameState) : Except PmmError (Nat × FrameState) :=
  match firstZero s.bits with
  | none => .error .noneFree
  | some idx => .ok (idx, { s with bits := s.bits.set idx true })

/-- All `count` bits starting at `i` are clear (`window.not_any()`). -/
def windowFree (bits : List Bool) : Nat → Nat → Bool
  | _, 0 => true
  | i, n + 1 => (bits.getD i true == false) && windowFree bits (i + 1) n

/-- Window search of `next_frames`: candidate start indices are
`0, skip, 2*skip, ...` (the `.enumerate().step_by(..)` over
`windows(count)`); only full windows (`i + count ≤ len`) exist. -/
def findRunFrom (bits : List Bool) (count skip : Nat) : Nat → Nat → Option Nat
  | _, 0 => none
  | i, fuel + 1 =>
    if i + count ≤ bits.length then
      if windowFree bits i count then some i
      else findRunFrom bits count skip (i + skip) fuel
    else none

/-- Sets `n` consecutive bits starting at `i` (`free_frames.fill(true)`). -/
def setRange (bits : List Bool) : Nat → Nat → List Bool
  | _, 0 => bits
  | i, n + 1 => setRange (bits.set i true) (i + 1) n

/-- Models `PhysicalMemoryManager::next_frames`: find a run of `count` clear bits
whose start index steps by `max(1, align_bits >> page_shift)`, fill it. -/
def nextFrames (s : FrameState) (count alignBits : Nat) : Except PmmError (Nat × FrameState) :=
  let skip := max 1 (alignBits >>> pageShiftNum)
  match findRunFrom s.bits count skip 0 (s.bits.length + 1) with
  | none => .error .noneFree
  | some idx => .ok (idx, { s with bits := setRange s.bits idx count })

/-! ### Bitmap list lemmas -/

theorem getD_set_of_ne : ∀ (l : List Bool) (i j : Nat) (b d : Bool), i ≠ j →
    (l.set i b).getD j d = l.getD j d := by
  intro l
  induction l with
  | nil => intro i j b d _; rfl
  | cons x xs ih =>
    intro i j b d h
    match i, j with
    | 0, 0 => exact absurd rfl h
    | 0, j + 1 => rfl
    | i + 1, 0 => rfl
    | i + 1, j + 1 =>
      have hij : i ≠ j := fun hh => h (by omega)
      simpa [List.getD_cons_succ] using ih i j b d hij

theorem getD_false_lt_length {l : List Bool} {i : Nat} (h : l.getD i true = false) :
    i < l.length := by
  by_contra hge
  rw [List.getD_eq_default l true (by omega)] at h
  exact absurd h (by decide)

theorem count_set_true : ∀ (l : List Bool) (i : Nat), l.getD i true = false →
    (l.set i true).count true = l.count true + 1 := by
  intro l
  induction l with
  | nil => intro i h; exact absurd h (by simp [List.getD])
  | cons x xs ih =>
    intro i h
    match i with
    | 0 =>
      have hx : x = false := h
      subst hx
      simp [List.count_cons]
    | i + 1 =>
      have := ih i (by simpa [List.getD_cons_succ] using h)
      simp [List.count_cons, this]
      omega

theorem count_set_false : ∀ (l : List Bool) (i : Nat), l.getD i true = true → i < l.length →
    (l.set i false).count true + 1 = l.count true := by
  intro l
  induction l with
  | nil => intro i _ h; simp at h
  | cons x xs ih =>
    intro i h hlen
    match i with
    | 0 =>
      have hx : x = true := h
      subst hx
      simp [List.count_cons]
    | i + 1 =>
      have := ih i (by simpa [List.getD_cons_succ] using h) (by simpa using hlen)
      simp [List.count_cons]
      omega

theorem firstZero_spec : ∀ (l : List Bool) (i : Nat), firstZero l = some i →
    l.getD i true = false := by
  intro l
  induction l with
  | nil => intro i h; simp [firstZero] at h
  | cons x xs ih =>
    intro i h
    cases x with
    | false =>
      have h0 : (some 0 : Option Nat) = some i := h
      cases h0
      rfl
    | true =>
      have h1 : (firstZero xs).map (· + 1) = some i := h
      cases hx : firstZero xs with
      | none => rw [hx] at h1; simp at h1
      | some j =>
        rw [hx] at h1
        simp at h1
        subst h1
        simpa [List.getD_cons_succ] using ih j hx

theorem windowFree_spec : ∀ (n : Nat) (l : List Bool) (i : Nat), windowFree l i n = true →
    ∀ j, j < n → l.getD (i + j) true = false := by
  intro n
  induction n with
  | zero => intro l i _ j hj; omega
  | succ n ih =>
    intro l i h j hj
    rw [windowFree, Bool.and_eq_true, beq_iff_eq] at h
    match j with
    | 0 => exact h.1
    | j + 1 =>
      have := ih l (i + 1) h.2 j (by omega)
      simpa [Nat.add_assoc, Nat.add_comm 1 j] using this

theorem findRunFrom_spec : ∀ (fuel : Nat) (l : List Bool) (count skip i idx : Nat),
    findRunFrom l count skip i fuel = some idx →
    windowFree l idx count = true ∧ idx + count ≤ l.length := by
  intro fuel
  induction fuel with
  | zero => intro l count skip i idx h; simp [findRunFrom] at h
  | succ fuel ih =>
    intro l count skip i idx h
    rw [findRunFrom] at h
    by_cases hb : i + count ≤ l.length
    · rw [if_pos hb] at h
      by_cases hw : windowFree l i count = true
      · rw [if_pos hw] at h
        cases h
        exact ⟨hw, hb⟩
      · rw [if_neg hw] at h
        exact ih l count skip (i + skip) idx h
    · rw [if_neg hb] at h
      cases h

theorem setRange_length : ∀ (n : Nat) (l : List Bool) (i : Nat),
    (setRange l i n).length = l.length := by
  intro n
  induction n with
  | zero => intro l i; rfl
  | succ n ih =>
    intro l i
    rw [setRange, ih, List.length_set]

theorem setRange_getD_outside : ∀ (n : Nat) (l : List Bool) (i j : Nat) (d : Bool),
    (j < i ∨ i + n ≤ j) → (setRange l i n).getD j d = l.getD j d := by
  intro n
  induction n with
  | zero => intro l i j d _; rfl
  | succ n ih =>
    intro l i j d h
    rw [setRange, ih _ _ _ _ (by omega), getD_set_of_ne _ _ _ _ _ (by omega)]

theorem setRange_count : ∀ (n : Nat) (l : List Bool) (i : Nat),
    (∀ j, j < n → l.getD (i + j) true = false) →
    (setRange l i n).count true = l.count true + n := by
  intro n
  induction n with
  | zero => intro l i _; rfl
  | succ n ih =>
    intro l i h
    have h0 : l.getD i true = false := by simpa using h 0 (by omega)
    have hrest : ∀ j, j < n → (l.set i true).getD (i + 1 + j) true = false := by
      intro j hj
      rw [getD_set_of_ne _ _ _ _ _ (by omega)]
      have := h (j + 1) (by omega)
      simpa [Nat.add_assoc, Nat.add_comm 1 j] using this
    rw [setRange, ih _ _ hrest, count_set_true _ _ h0]
    omega

/-! ### Operation sequences over the frame table -/

/-- One mutating call on the `PhysicalMemoryManager` API. -/
inductive PmmOp where
  | lock (idx : Nat)
  | free (idx : Nat)
  | next
  | nexts (count alignBits : Nat)
deriving Repr, DecidableEq

/-- Applies one operation; returns the new state plus how many frames the
call locked and how many it freed (zero on failure). -/
def stepOp (s : FrameState) : PmmOp → FrameState × Nat × Nat
  | .lock idx =>
    match lockFrame s idx with
    | .ok s2 => (s2, 1, 0)
    | .error _ => (s, 0, 0)
  | .free idx =>
    match freeFrame s idx with
    | .ok s2 => (s2, 0, 1)
    | .error _ => (s, 0, 0)
  | .next =>
    match nextFrame s with
    | .ok (_, s2) => (s2, 1, 0)
    | .error _ => (s, 0, 0)
  | .nexts count alignBits =>
    match nextFrames s count alignBits with
    | .ok (_, s2) => (s2, count, 0)
    | .error _ => (s, 0, 0)

/-- Runs a sequence of operations, accumulating the locked/freed tallies. -/
def runOps (s : FrameState) : List PmmOp → FrameState × Nat × Nat
  | [] => (s, 0, 0)
  | op :: rest =>
    let r1 := stepOp s op
    let r2 := runOps r1.1 rest
    (r2.1, r1.2.1 + r2.2.1, r1.2.2 + r2.2.2)

/-- State right after `PhysicalMemoryManager::init`: the bitmap covers at
least `totalFrames` bits and every padding bit past `totalFrames` is set. -/
def Padded (s : FrameState) : Prop :=
  s.totalFrames ≤ s.bits.length ∧
    ∀ i, i < s.bits.length → s.totalFrames ≤ i → s.bits.getD i true = true

instance : DecidablePred Padded := by
  intro s
  unfold Padded
  infer_instance

theorem padded_get {s : FrameState} (h : Padded s) {i : Nat}
    (hi : s.totalFrames ≤ i) : s.get i = true := by
  by_cases hlen : i < s.bits.length
  · exact h.2 i hlen hi
  · rw [FrameState.get, List.getD_eq_default]
    omega

theorem lockFrame_ok {s : FrameState} {idx : Nat} {s2 : FrameState}
    (h : lockFrame s idx = .ok s2) :
    idx < s.totalFrames ∧ s.bits.getD idx true = false ∧
      s2 = { s with bits := s.bits.set idx true } := by
  rw [lockFrame] at h
  by_cases hb : idx < s.totalFrames
  · rw [if_pos hb] at h
    by_cases hfree : s.bits.getD idx true = false
    · rw [if_pos hfree] at h
      cases h
      exact ⟨hb, hfree, rfl⟩
    · rw [if_neg hfree] at h
      cases h
  · rw [if_neg hb] at h
    cases h

theorem freeFrame_ok {s : FrameState} {idx : Nat} {s2 : FrameState}
    (h : freeFrame s idx = .ok s2) :
    idx < s.totalFrames ∧ s.bits.getD idx true = true ∧
      s2 = { s with bits := s.bits.set idx false } := by
  rw [freeFrame] at h
  by_cases hb : idx < s.totalFrames
  · rw [if_pos hb] at h
    by_cases hset : s.bits.getD idx true = true
    · rw [if_pos hset] at h
      cases h
      exact ⟨hb, hset, rfl⟩
    · rw [if_neg hset] at h
      cases h
  · rw [if_neg hb] at h
    cases h

theorem nextFrame_ok {s : FrameState} {idx : Nat} {s2 : FrameState}
    (h : nextFrame s = .ok (idx, s2)) :
    s.bits.getD idx true = false ∧ s2 = { s with bits := s.bits.set idx true } := by
  rw [nextFrame] at h
  cases hz : firstZero s.bits with
  | none => rw [hz] at h; cases h
  | some j =>
    rw [hz] at h
    cases h
    exact ⟨firstZero_spec s.bits idx hz, rfl⟩

theorem stepOp_spec (s : FrameState) (op : PmmOp) (h : Padded s) :
    Padded (stepOp s op).1 ∧ (stepOp s op).1.totalFrames = s.totalFrames ∧
    popcount (stepOp s op).1 + (stepOp s op).2.2 = popcount s + (stepOp s op).2.1 ∧
    ∀ i, s.totalFrames ≤ i → (stepOp s op).1.get i = s.get i := by
  obtain ⟨hlen, hpad⟩ := h
  cases op with
  | lock idx =>
    cases hl : lockFrame s idx with
    | ok s2 =>
      obtain ⟨hb, hfree, hs2⟩ := lockFrame_ok hl
      subst hs2
      have hstep : stepOp s (.lock idx) = ({ s with bits := s.bits.set idx true }, 1, 0) := by
        simp only [stepOp, hl]
      rw [hstep]
      dsimp only
      refine ⟨⟨by simpa using hlen, ?_⟩, rfl, ?_, ?_⟩
      · intro i hilen hit
        dsimp only at hilen hit
        simp only [List.length_set] at hilen
        rw [getD_set_of_ne _ _ _ _ _ (by omega)]
        exact hpad i hilen hit
      · simpa [popcount] using count_set_true s.bits idx hfree
      · intro i hi
        exact getD_set_of_ne _ _ _ _ _ (by omega)
    | error e =>
      have hstep : stepOp s (.lock idx) = (s, 0, 0) := by
        simp only [stepOp, hl]
      rw [hstep]
      dsimp only
      exact ⟨⟨hlen, hpad⟩, rfl, by omega, fun i _ => rfl⟩
  | free idx =>
    cases hl : freeFrame s idx with
    | ok s2 =>
      obtain ⟨hb, hset, hs2⟩ := freeFrame_ok hl
      subst hs2
      have hstep : stepOp s (.free idx) = ({ s with bits := s.bits.set idx false }, 0, 1) := by
        simp only [stepOp, hl]
      rw [hstep]
      dsimp only
      refine ⟨⟨by simpa using hlen, ?_⟩, rfl, ?_, ?_⟩
      · intro i hilen hit
        dsimp only at hilen hit
        simp only [List.length_set] at hilen
        rw [getD_set_of_ne _ _ _ _ _ (by omega)]
        exact hpad i hilen hit
      · have := count_set_false s.bits idx hset (by omega)
        simp only [popcount]
        omega
      · intro i hi
        exact getD_set_of_ne _ _ _ _ _ (by omega)
    | error e =>
      have hstep : stepOp s (.free idx) = (s, 0, 0) := by
        simp only [stepOp, hl]
      rw [hstep]
      dsimp only
      exact ⟨⟨hlen, hpad⟩, rfl, by omega, fun i _ => rfl⟩
  | next =>
    cases hl : nextFrame s with
    | ok pair =>
      obtain ⟨idx, s2⟩ := pair
      obtain ⟨hfree, hs2⟩ := nextFrame_ok hl
      subst hs2
      have hidxlen := getD_false_lt_length hfree
      have hidxt : idx < s.totalFrames := by
        by_contra hc
        rw [hpad idx hidxlen (by omega)] at hfree
        exact absurd hfree (by decide)
      have hstep : stepOp s .next = ({ s with bits := s.bits.set idx true }, 1, 0) := by
        simp only [stepOp, hl]
      rw [hstep]
      dsimp only
      refine ⟨⟨by simpa using hlen, ?_⟩, rfl, ?_, ?_⟩
      · intro i hilen hit
        dsimp only at hilen hit
        simp only [List.length_set] at hilen
        rw [getD_set_of_ne _ _ _ _ _ (by omega)]
        exact hpad i hilen hit
      · simpa [popcount] using count_set_true s.bits idx hfree
      · intro i hi
        exact getD_set_of_ne _ _ _ _ _ (by omega)
    | error e =>
      have hstep : stepOp s .next = (s, 0, 0) := by
        simp only [stepOp, hl]
      rw [hstep]
      dsimp only
      exact ⟨⟨hlen, hpad⟩, rfl, by omega, fun i _ => rfl⟩
  | nexts count alignBits =>
    cases hz : findRunFrom s.bits count (max 1 (alignBits >>> pageShiftNum)) 0 (s.bits.length + 1) with
    | none =>
      have hstep : stepOp s (.nexts count alignBits) = (s, 0, 0) := by
        simp only [stepOp, nextFrames, hz]
      rw [hstep]
      dsimp only
      exact ⟨⟨hlen, hpad⟩, rfl, by omega, fun i _ => rfl⟩
    | some idx =>
      have hstep : stepOp s (.nexts count alignBits) =
          ({ s with bits := setRange s.bits idx count }, count, 0) := by
        simp only [stepOp, nextFrames, hz]
      rw [hstep]
      dsimp only
      obtain ⟨hw, hbound⟩ := findRunFrom_spec _ s.bits _ _ _ _ hz
      have hall := windowFree_spec count s.bits idx hw
      have hwin : ∀ j, j < count → idx + j < s.totalFrames := by
        intro j hj
        by_contra hc
        have hp := hpad (idx + j) (by omega) (by omega)
        have := hall j hj
        rw [hp] at this
        exact absurd this (by decide)
      refine ⟨⟨by rw [setRange_length]; exact hlen, ?_⟩, rfl, ?_, ?_⟩
      · intro i hilen hit
        dsimp only at hilen hit
        rw [setRange_length] at hilen
        rw [setRange_getD_outside]
        · exact hpad i hilen hit
        · match count with
          | 0 => omega
          | c + 1 =>
            have := hwin c (by omega)
            omega
      · simpa [popcount] using setRange_count count s.bits idx hall
      · intro i hi
        show (setRange s.bits idx count).getD i true = s.bits.getD i true
        rw [setRange_getD_outside]
        match count with
        | 0 => omega
        | c + 1 =>
          have := hwin c (by omega)
          omega

theorem runOps_spec (ops : List PmmOp) : ∀ (s : FrameState), Padded s →
    Padded (runOps s ops).1 ∧ (runOps s ops).1.totalFrames = s.totalFrames ∧
    popcount (runOps s ops).1 + (runOps s ops).2.2 = popcount s + (runOps s ops).2.1 ∧
    ∀ i, s.totalFrames ≤ i → (runOps s ops).1.get i = s.get i := by
  induction ops with
  | nil =>
    intro s h
    refine ⟨h, rfl, ?_, fun i _ => rfl⟩
    simp [runOps]
  | cons op rest ih =>
    intro s h
    obtain ⟨h1, ht1, hc1, hu1⟩ := stepOp_spec s op h
    obtain ⟨h2, ht2, hc2, hu2⟩ := ih (stepOp s op).1 h1
    refine ⟨by simpa [runOps] using h2, by simp only [runOps]; omega, ?_, ?_⟩
    · simp only [runOps]
      omega
    · intro i hi
      simp only [runOps]
      rw [hu2 i (by omega), hu1 i hi]

/-- C2: Bitmap conservation. For every sequence of `lock_frame`,
`free_frame`, `next_frame`, `next_frames` operations starting from an
initialized frame table (padding bits set), the final number of set bits
plus the frames freed by successful operations equals the initial number
of set bits plus the frames locked by successful operations, and no bit at
an index outside `[0, total_frames)` ever changes value (stated for the
final state of every such sequence, hence for every intermediate state of
any longer sequence). -/
theorem pmm_bitmap_conservation (s : FrameState) (ops : List PmmOp) (hinit : Padded s) :
    popcount (runOps s ops).1 + (runOps s ops).2.2 = popcount s + (runOps s ops).2.1 ∧
    ∀ i, s.totalFrames ≤ i → (runOps s ops).1.get i = s.get i := by
  obtain ⟨_, _, hc, hu⟩ := runOps_spec ops s hinit
  exact ⟨hc, hu⟩

/-- Witness for C2 at a concrete initialized table and operation list. -/
theorem pmm_bitmap_conservation_witness :
    Padded ⟨[false, false, true], 2⟩ ∧
      (popcount (runOps ⟨[false, false, true], 2⟩ [.lock 0, .next, .free 0, .lock 5, .nexts 2 0]).1 +
          (runOps ⟨[false, false, true], 2⟩ [.lock 0, .next, .free 0, .lock 5, .nexts 2 0]).2.2 =
        popcount ⟨[false, false, true], 2⟩ +
          (runOps ⟨[false, false, true], 2⟩ [.lock 0, .next, .free 0, .lock 5, .nexts 2 0]).2.1 ∧
        ∀ i, 2 ≤ i →
          (runOps ⟨[false, false, true], 2⟩ [.lock 0, .next, .free 0, .lock 5, .nexts 2 0]).1.get i =
            FrameState.get ⟨[false, false, true], 2⟩ i) :=
  ⟨by decide, pmm_bitmap_conservation ⟨[false, false, true], 2⟩
    [.lock 0, .next, .free 0, .lock 5, .nexts 2 0] (by decide)⟩

/-! ## Kernel allocator (`mem/alloc.rs`) -/

/-- Models `libsys::align_up_div(x, shift)`: divide by `2^shift` rounding up. -/
def alignUpDiv (x shift : Nat) : Nat := (x + (1 <<< shift) - 1) >>> shift

/-- Frees `n` consecutive frames starting at `i`, stopping at the first
failure (the `try_for_each(PhysicalMemoryManager::free_frame)` of
`KernelAllocator::deallocate`). -/
def freeRange : FrameState → Nat → Nat → Except PmmError FrameState
  | s, _, 0 => .ok s
  | s, i, n + 1 =>
    match freeFrame s i with
    | .ok s2 => freeRange s2 (i + 1) n
    | .error e => .error e

/-- Models `KernelAllocator::deallocate`: for layouts of at most one page the
`free_frame` result is discarded with `.ok()`; for larger layouts every
frame of the range is freed and any failure panics
(`.expect("failed while freeing frames")`), modelled as `Except.error`. -/
def deallocate (s : FrameState) (frameIdx sizeBytes : Nat) : Except Unit FrameState :=
  if sizeBytes ≤ pageSize then
    .ok (match freeFrame s frameIdx with
      | .ok s2 => s2
      | .error _ => s)
  else
    match freeRange s frameIdx (alignUpDiv sizeBytes pageShiftNum) with
    | .ok s2 => .ok s2
    | .error _ => .error ()

theorem freeFrame_of_conditions {s : FrameState} {i : Nat}
    (h1 : i < s.totalFrames) (h2 : s.bits.getD i true = true) :
    freeFrame s i = .ok { s with bits := s.bits.set i false } := by
  rw [freeFrame, if_pos h1, if_pos h2]

theorem freeRange_ok_iff : ∀ (n : Nat) (s : FrameState) (i : Nat),
    (freeRange s i n).isOk = true ↔
      ∀ j, j < n → i + j < s.totalFrames ∧ s.get (i + j) = true := by
  intro n
  induction n with
  | zero =>
    intro s i
    constructor
    · intro _ j hj; omega
    · intro _; rfl
  | succ n ih =>
    intro s i
    cases hf : freeFrame s i with
    | ok s2 =>
      obtain ⟨hb, hset, hs2⟩ := freeFrame_ok hf
      have hrw : freeRange s i (n + 1) = freeRange s2 (i + 1) n := by
        rw [freeRange, hf]
      rw [hrw, ih s2 (i + 1)]
      subst hs2
      constructor
      · intro hall j hj
        match j with
        | 0 => exact ⟨by simpa using hb, by simpa [FrameState.get] using hset⟩
        | j + 1 =>
          obtain ⟨hjb, hjg⟩ := hall j (by omega)
          refine ⟨by simp at hjb ⊢; omega, ?_⟩
          have heq : FrameState.get { s with bits := s.bits.set i false } (i + 1 + j) =
              s.get (i + 1 + j) := getD_set_of_ne _ _ _ _ _ (by omega)
          rw [heq] at hjg
          show s.bits.getD (i + (j + 1)) true = true
          have : i + (j + 1) = i + 1 + j := by omega
          rw [this]
          exact hjg
      · intro hall j hj
        obtain ⟨hjb, hjg⟩ := hall (j + 1) (by omega)
        refine ⟨by simp at hjb ⊢; omega, ?_⟩
        have heq : FrameState.get { s with bits := s.bits.set i false } (i + 1 + j) =
            s.get (i + 1 + j) := getD_set_of_ne _ _ _ _ _ (by omega)
        rw [heq]
        show s.bits.getD (i + 1 + j) true = true
        have : i + 1 + j = i + (j + 1) := by omega
        rw [this]
        exact hjg
    | error e =>
      have hrw : freeRange s i (n + 1) = .error e := by
        rw [freeRange, hf]
      rw [hrw]
      constructor
      · intro hc; cases hc
      · intro hall
        obtain ⟨hb, hg⟩ := hall 0 (by omega)
        have : freeFrame s i = .ok { s with bits := s.bits.set i false } :=
          freeFrame_of_conditions (by omega) (by simpa [FrameState.get] using hg)
        rw [this] at hf
        cases hf

/-- C9: The kernel allocator's `deallocate` is asymmetric in error
reporting. For every deallocation whose layout size is at most one page,
a failure to free the frame (for example, the frame was already free) is
silently discarded and the call returns normally with the state
unchanged; for every deallocation spanning more than one page, the call
returns normally iff every frame of the range can be freed (in bounds
and currently locked), and otherwise panics. -/
theorem kalloc_deallocate_asymmetry (s : FrameState) (frameIdx sizeBytes : Nat) :
    (sizeBytes ≤ pageSize → (deallocate s frameIdx sizeBytes).isOk = true)
    ∧ (sizeBytes ≤ pageSize → (freeFrame s frameIdx).isOk = false →
        deallocate s frameIdx sizeBytes = .ok s)
    ∧ (pageSize < sizeBytes →
        ((deallocate s frameIdx sizeBytes).isOk = true ↔
          ∀ j, j < alignUpDiv sizeBytes pageShiftNum →
            frameIdx + j < s.totalFrames ∧ s.get (frameIdx + j) = true)) := by
  refine ⟨?_, ?_, ?_⟩
  · intro hsmall
    rw [deallocate, if_pos hsmall]
    rfl
  · intro hsmall hfail
    rw [deallocate, if_pos hsmall]
    cases hf : freeFrame s frameIdx with
    | ok s2 => rw [hf] at hfail; cases hfail
    | error e => rfl
  · intro hbig
    rw [deallocate, if_neg (by omega)]
    rw [← freeRange_ok_iff]
    cases freeRange s frameIdx (alignUpDiv sizeBytes pageShiftNum) with
    | ok s2 => exact Iff.rfl
    | error e => exact Iff.rfl

/-- Witness for C9: a one-page deallocation of an already-free frame
returns normally with the state unchanged, while a two-page
deallocation spanning that same free frame panics. -/
theorem kalloc_deallocate_asymmetry_witness :
    ((100 ≤ pageSize ∧ (freeFrame ⟨[true, false, true, true], 4⟩ 1).isOk = false) ∧
      deallocate ⟨[true, false, true, true], 4⟩ 1 100 = .ok ⟨[true, false, true, true], 4⟩)
    ∧ (pageSize < 8192 ∧ (deallocate ⟨[true, false, true, true], 4⟩ 0 8192).isOk = false) := by
  refine ⟨⟨⟨by decide, by decide⟩, ?_⟩, by decide, ?_⟩
  · exact (kalloc_deallocate_asymmetry ⟨[true, false, true, true], 4⟩ 1 100).2.1
      (by decide) (by decide)
  · have h := (kalloc_deallocate_asymmetry ⟨[true, false, true, true], 4⟩ 0 8192).2.2
      (by decide)
    cases hA : (deallocate ⟨[true, false, true, true], 4⟩ 0 8192).isOk with
    | false => rfl
    | true =>
      have hall := h.mp hA
      have := (hall 1 (by decide)).2
      exact absurd this (by decide)

/-! ## Paging and the Mapper (`mem/mapper.rs`, `mem/paging`)

Modelled from the spec: the file `mem/paging/mod.rs` (types `PageTable`,
`PageTableEntry`, `TableDepth`, `TableEntryFlags` and the walk functions
`with_entry`, `with_entry_mut`, `with_entry_create`) is not present under
`src/`; only its walker, its users (`mem/mapper.rs`) and the spec describe
it. The model below follows the spec, section 4.4 and the data model: a
radix page table of depth `4`, `512` entries per table, tables addressed by
their frame; `with_entry_create` allocates missing intermediate tables from
the PMM, zeroes them, and links them with `PRESENT | USER | WRITE`; the
read walks require `PRESENT` at every level and, when no target depth is
given, stop at the leaf depth or at a `HUGE` entry. -/

/-- Page-table entry flag set (`TableEntryFlags`). -/
structure TableEntryFlags where
  present : Bool
  write : Bool
  user : Bool
  writeThrough : Bool
  cacheDisable : Bool
  accessed : Bool
  dirty : Bool
  huge : Bool
  globalPage : Bool
  noExecute : Bool
deriving Repr, DecidableEq

/-- The empty flag set. -/
def TableEntryFlags.empty : TableEntryFlags :=
  ⟨false, false, false, false, false, false, false, false, false, false⟩

/-- The `PRESENT | USER | WRITE` set used to link intermediate tables. -/
def TableEntryFlags.puw : TableEntryFlags :=
  ⟨true, true, true, false, false, false, false, false, false, false⟩

/-- Flag-set inclusion: every flag of `b` is also in `a`. -/
def TableEntryFlags.contains (a b : TableEntryFlags) : Bool :=
  (!b.present || a.present) && (!b.write || a.write) && (!b.user || a.user) &&
  (!b.writeThrough || a.writeThrough) && (!b.cacheDisable || a.cacheDisable) &&
  (!b.accessed || a.accessed) && (!b.dirty || a.dirty) && (!b.huge || a.huge) &&
  (!b.globalPage || a.globalPage) && (!b.noExecute || a.noExecute)

/-- Clears the `PRESENT` flag
(`entry.set_attributes(TableEntryFlags::PRESENT, FlagsModify::Remove)`). -/
def TableEntryFlags.removePresent (f : TableEntryFlags) : TableEntryFlags :=
  { f with present := false }

/-- A page-table entry: the referenced frame index plus the flag bits. -/
structure PTE where
  frame : Nat
  flags : TableEntryFlags
deriving Repr, DecidableEq

/-- A zeroed entry. -/
def PTE.zero : PTE := ⟨0, TableEntryFlags.empty⟩

/-- Physical memory as seen through the HHDM: every frame holds a table of
entries indexed `0..512`. -/
def Heap : Type := Nat → Nat → PTE

/-- A table with every entry zeroed (`core::ptr::write_bytes(.., 0, ..)`). -/
def zeroTable : Nat → PTE := fun _ => PTE.zero

/-- Writes one entry of one table. -/
def updEntry (h : Heap) (t idx : Nat) (e : PTE) : Heap :=
  Function.update h t (Function.update (h t) idx e)

/-- Paging depth of the modelled kernel (`TableDepth::max()` for 4-level
paging; `TableDepth::min()` is `1`). -/
def maxDepth : Nat := 4

/-- Index of `page` in the table at depth `d` (9 bits per level above the
page shift). -/
def pageIndexAt (page d : Nat) : Nat :=
  (page >>> (pageShiftNum + 9 * (d - 1))) % tableIndexSize

/-- Errors of `mem/paging::Error` (PMM errors are wrapped; the
`debug_assert!` on the `HUGE` flag for huge-depth mappings is modelled as
`hugeMissing`). -/
inductive PagingError where
  | notMapped
  | allocationFailure
  | hugeMissing
  | pmm (e : PmmError)
deriving Repr, DecidableEq

/-- Walk of `with_entry_create`: descends from depth `d` toward the target
depth `td`, allocating, zeroing and linking (with `PRESENT | USER | WRITE`)
any missing intermediate table. Returns the new heap, the new PMM state,
and the frame of the table holding the target entry. -/
def walkCreate (page td : Nat) : Nat → Heap → FrameState → Nat →
    Except PagingError (Heap × FrameState × Nat)
  | 0, _, _, _ => .error .notMapped
  | d + 1, h, pmm, t =>
    if d + 1 = td then .ok (h, pmm, t)
    else
      let idx := pageIndexAt page (d + 1)
      let e := h t idx
      if e.flags.present = true then
        walkCreate page td d h pmm e.frame
      else
        match nextFrame pmm with
        | .error _ => .error .allocationFailure
        | .ok (f, pmm2) =>
          walkCreate page td d (updEntry (Function.update h f zeroTable) t idx ⟨f, .puw⟩) pmm2 f

/-- Read walk of `with_entry` / `with_entry_mut`: requires `PRESENT` at
every level; with `some td` it stops at depth `td`, with `none` it stops at
the leaf depth or at a `HUGE` entry. Returns the table frame, the index and
the entry found there. -/
def walkLoc (page : Nat) (tdOpt : Option Nat) : Nat → Heap → Nat →
    Except PagingError (Nat × Nat × PTE)
  | 0, _, _ => .error .notMapped
  | d + 1, h, t =>
    let idx := pageIndexAt page (d + 1)
    let e := h t idx
    if e.flags.present = false then .error .notMapped
    else
      match tdOpt with
      | some td => if d + 1 = td then .ok (t, idx, e) else walkLoc page tdOpt d h e.frame
      | none =>
        if d + 1 = 1 ∨ e.flags.huge = true then .ok (t, idx, e)
        else walkLoc page none d h e.frame

/-- A `Mapper`: depth is fixed at `maxDepth`; the root table frame plus the
memory and PMM state it operates on. -/
structure MapperState where
  heap : Heap
  root : Nat
  pmm : FrameState

/-- Models `Mapper::map`: optionally lock the frame first, walk-create to the
target depth, check the huge-flag assertion, then write the leaf entry. -/
def MapperState.map (s : MapperState) (page td frame : Nat) (lock : Bool)
    (attributes : TableEntryFlags) : Except PagingError MapperState :=
  match (if lock then (lockFrame s.pmm frame).mapError PagingError.pmm else .ok s.pmm) with
  | .error e => .error e
  | .ok pmm0 =>
    match walkCreate page td maxDepth s.heap pmm0 s.root with
    | .error e => .error e
    | .ok (h1, pmm1, t1) =>
      if 1 < td ∧ attributes.huge = false then .error .hugeMissing
      else .ok { heap := updEntry h1 t1 (pageIndexAt page td) ⟨frame, attributes⟩,
                 root := s.root, pmm := pmm1 }

/-- Models `Mapper::is_mapped`. -/
def MapperState.isMapped (s : MapperState) (page : Nat) (tdOpt : Option Nat) : Bool :=
  (walkLoc page tdOpt maxDepth s.heap s.root).isOk

/-- Models `Mapper::get_mapped_to`. -/
def MapperState.getMappedTo (s : MapperState) (page : Nat) : Option Nat :=
  match walkLoc page none maxDepth s.heap s.root with
  | .ok (_, _, e) => some e.frame
  | .error _ => none

/-- Models `Mapper::get_page_attributes`. -/
def MapperState.getPageAttributes (s : MapperState) (page : Nat) : Option TableEntryFlags :=
  match walkLoc page none maxDepth s.heap s.root with
  | .ok (_, _, e) => some e.flags
  | .error _ => none

/-- Models `Mapper::unmap`: walk to the entry, clear `PRESENT`, zero the frame
field, optionally return the frame to the PMM (failure propagates). -/
def MapperState.unmap (s : MapperState) (page : Nat) (tdOpt : Option Nat) (free : Bool) :
    Except PagingError MapperState :=
  match walkLoc page tdOpt maxDepth s.heap s.root with
  | .error e => .error e
  | .ok (t, idx, e) =>
    let h2 := updEntry s.heap t idx ⟨0, e.flags.removePresent⟩
    if free then
      match freeFrame s.pmm e.frame with
      | .ok pmm2 => .ok { heap := h2, root := s.root, pmm := pmm2 }
      | .error pe => .error (.pmm pe)
    else .ok { heap := h2, root := s.root, pmm := s.pmm }

/-- The tables a walk from depth `d` at table `t` toward depth `td` for
`page` passes through, stopping at the first absent entry or at the
target depth. -/
def pathList (page td : Nat) : Nat → Heap → Nat → List Nat
  | 0, _, _ => []
  | d + 1, h, t =>
    if d + 1 ≤ td then [t]
    else
      let e := h t (pageIndexAt page (d + 1))
      if e.flags.present = true then t :: pathList page td d h e.frame else [t]

/-- No present entry strictly above the target depth on the walk path is a
huge leaf (mapping underneath an existing huge mapping is out of scope). -/
def clearPath (page td : Nat) : Nat → Heap → Nat → Bool
  | 0, _, _ => true
  | d + 1, h, t =>
    if d + 1 ≤ td then true
    else
      let e := h t (pageIndexAt page (d + 1))
      if e.flags.present = true then
        (!e.flags.huge) && clearPath page td d h e.frame
      else true

/-- Well-formedness of a mapper for a walk to `page` at depth `td`: the
tables on the walk path are pairwise distinct, all locked in the PMM, and
none of them is a huge leaf above the target depth. Every mapper built by
`Mapper::new` (zeroed root frame allocated from the PMM) satisfies this. -/
def MapperInv (s : MapperState) (page td : Nat) : Prop :=
  (pathList page td maxDepth s.heap s.root).Nodup ∧
  (∀ u ∈ pathList page td maxDepth s.heap s.root, s.pmm.get u = true) ∧
  clearPath page td maxDepth s.heap s.root = true

/-! ### Walk lemmas -/

theorem getD_set_self : ∀ (l : List Bool) (i : Nat) (b d : Bool), i < l.length →
    (l.set i b).getD i d = b := by
  intro l
  induction l with
  | nil => intro i b d h; simp at h
  | cons x xs ih =>
    intro i b d h
    match i with
    | 0 => rfl
    | i + 1 => simpa [List.getD_cons_succ] using ih i b d (by simpa using h)

theorem updEntry_same_idx (h : Heap) (t idx : Nat) (e : PTE) :
    updEntry h t idx e t idx = e := by
  simp [updEntry]

theorem updEntry_other_table {t u : Nat} (hne : u ≠ t) (h : Heap) (idx : Nat) (e : PTE) :
    updEntry h t idx e u = h u := by
  simp [updEntry, Function.update_noteq hne]

theorem walkCreate_ok_le (page td : Nat) : ∀ (d : Nat) (h : Heap) (pmm : FrameState) (t : Nat)
    (r : Heap × FrameState × Nat), walkCreate page td d h pmm t = .ok r → td ≤ d := by
  intro d
  induction d with
  | zero => intro h pmm t r hwc; rw [walkCreate] at hwc; cases hwc
  | succ d ih =>
    intro h pmm t r hwc
    rw [walkCreate] at hwc
    by_cases htd : d + 1 = td
    · omega
    · rw [if_neg htd] at hwc
      by_cases hp : (h t (pageIndexAt page (d + 1))).flags.present = true
      · rw [if_pos hp] at hwc
        have := ih h pmm (h t (pageIndexAt page (d + 1))).frame r hwc
        omega
      · rw [if_neg hp] at hwc
        cases hnf : nextFrame pmm with
        | error e => rw [hnf] at hwc; cases hwc
        | ok pair =>
          rw [hnf] at hwc
          have := ih _ pair.2 pair.1 r hwc
          omega

theorem walkCreate_ok_pos (page td : Nat) : ∀ (d : Nat) (h : Heap) (pmm : FrameState) (t : Nat)
    (r : Heap × FrameState × Nat), walkCreate page td d h pmm t = .ok r → 1 ≤ td := by
  intro d
  induction d with
  | zero => intro h pmm t r hwc; rw [walkCreate] at hwc; cases hwc
  | succ d ih =>
    intro h pmm t r hwc
    rw [walkCreate] at hwc
    by_cases htd : d + 1 = td
    · omega
    · rw [if_neg htd] at hwc
      by_cases hp : (h t (pageIndexAt page (d + 1))).flags.present = true
      · rw [if_pos hp] at hwc
        exact ih h pmm (h t (pageIndexAt page (d + 1))).frame r hwc
      · rw [if_neg hp] at hwc
        cases hnf : nextFrame pmm with
        | error e => rw [hnf] at hwc; cases hwc
        | ok pair =>
          rw [hnf] at hwc
          exact ih _ pair.2 pair.1 r hwc

theorem walkCreate_spec (page td : Nat) : ∀ (d : Nat) (h : Heap) (pmm : FrameState) (t : Nat)
    (h1 : Heap) (pmm1 : FrameState) (t1 : Nat),
    walkCreate page td d h pmm t = .ok (h1, pmm1, t1) →
    (pathList page td d h t).Nodup →
    (∀ u ∈ pathList page td d h t, pmm.get u = true) →
    clearPath page td d h t = true →
    (∀ e : PTE,
        walkLoc page (some td) d (updEntry h1 t1 (pageIndexAt page td) e) t =
          (if e.flags.present = true then .ok (t1, pageIndexAt page td, e)
           else .error .notMapped))
    ∧ (∀ e : PTE, e.flags.present = true → (td = 1 ∨ e.flags.huge = true) →
        walkLoc page none d (updEntry h1 t1 (pageIndexAt page td) e) t =
          .ok (t1, pageIndexAt page td, e))
    ∧ (∀ u, pmm.get u = true → u ∉ pathList page td d h t → h1 u = h u)
    ∧ (pmm1.get t1 = true ∧ (t1 ∈ pathList page td d h t ∨ pmm.get t1 = false))
    ∧ (∀ u, pmm.get u = true → pmm1.get u = true) := by
  intro d
  induction d with
  | zero => intro h pmm t h1 pmm1 t1 hwc; rw [walkCreate] at hwc; cases hwc
  | succ d ih =>
    intro h pmm t h1 pmm1 t1 hwc hnodup hmem hclear
    have hpos := walkCreate_ok_pos page td (d + 1) h pmm t (h1, pmm1, t1) hwc
    rw [walkCreate] at hwc
    by_cases htd : d + 1 = td
    · -- base: the target depth is reached at this level
      rw [if_pos htd] at hwc
      cases hwc
      have hpathbase : pathList page td (d + 1) h t = [t] := by
        rw [pathList, if_pos (by omega)]
      have hmemt : pmm.get t = true := by
        apply hmem
        rw [hpathbase]
        exact List.mem_singleton.mpr rfl
      refine ⟨?_, ?_, fun u _ _ => rfl, ⟨hmemt, ?_⟩, fun u hu => hu⟩
      · intro e
        subst htd
        cases hp : e.flags.present with
        | true => simp [walkLoc, updEntry_same_idx, hp]
        | false => simp [walkLoc, updEntry_same_idx, hp]
      · intro e hp hprov
        subst htd
        cases hprov with
        | inl h1eq => simp [walkLoc, updEntry_same_idx, hp, h1eq]
        | inr hh => simp [walkLoc, updEntry_same_idx, hp, hh]
      · rw [hpathbase]
        exact Or.inl (List.mem_singleton.mpr rfl)
    · -- step: descend one level
      rw [if_neg htd] at hwc
      have hlt : td < d + 1 := by
        have := walkCreate_ok_le page td (d + 1) h pmm t (h1, pmm1, t1) (by
          rw [walkCreate, if_neg htd]; exact hwc)
        omega
      have hnle : ¬(d + 1 ≤ td) := by omega
      by_cases hp : (h t (pageIndexAt page (d + 1))).flags.present = true
      · -- present intermediate entry: recurse through it
        rw [if_pos hp] at hwc
        have hpathstep : pathList page td (d + 1) h t =
            t :: pathList page td d h (h t (pageIndexAt page (d + 1))).frame := by
          rw [pathList, if_neg hnle, if_pos hp]
        have hclearstep := hclear
        rw [clearPath, if_neg hnle, if_pos hp, Bool.and_eq_true] at hclearstep
        obtain ⟨hhugeB, hclearrest⟩ := hclearstep
        have hhuge : (h t (pageIndexAt page (d + 1))).flags.huge = false := by
          simpa using hhugeB
        rw [hpathstep] at hnodup hmem
        have hnodup2 := List.nodup_cons.mp hnodup
        obtain ⟨W2, Wn2, P2, TL2, MONO2⟩ := ih h pmm (h t (pageIndexAt page (d + 1))).frame
          h1 pmm1 t1 hwc hnodup2.2 (fun u hu => hmem u (List.mem_cons_of_mem t hu)) hclearrest
        have hmemt : pmm.get t = true := hmem t (List.mem_cons_self t _)
        have htne : t ≠ t1 := by
          cases TL2.2 with
          | inl hin => intro hc; exact hnodup2.1 (hc ▸ hin)
          | inr hfree => intro hc; rw [← hc] at hfree; rw [hmemt] at hfree; cases hfree
        have hh1t : h1 t = h t := P2 t hmemt hnodup2.1
        have hHt : ∀ e : PTE, updEntry h1 t1 (pageIndexAt page td) e t = h t := by
          intro e
          rw [updEntry_other_table htne, hh1t]
        refine ⟨?_, ?_, ?_, ?_, MONO2⟩
        · intro e
          rw [walkLoc]
          simp only [hHt e, hp, Bool.true_eq_false, if_false, if_neg htd]
          exact W2 e
        · intro e hpE hprov
          rw [walkLoc]
          have hne1 : ¬(d + 1 = 1 ∨ (h t (pageIndexAt page (d + 1))).flags.huge = true) := by
            intro hc
            cases hc with
            | inl h1eq => omega
            | inr hh => rw [hh] at hhuge; cases hhuge
          simp only [hHt e, hp, Bool.true_eq_false, if_false, if_neg hne1]
          exact Wn2 e hpE hprov
        · intro u hu humem
          rw [hpathstep] at humem
          have : u ∉ pathList page td d h (h t (pageIndexAt page (d + 1))).frame := by
            intro hc
            exact humem (List.mem_cons_of_mem t hc)
          exact P2 u hu this
        · refine ⟨TL2.1, ?_⟩
          rw [hpathstep]
          cases TL2.2 with
          | inl hin => exact Or.inl (List.mem_cons_of_mem t hin)
          | inr hfree => exact Or.inr hfree
      · -- absent intermediate entry: allocate, zero, link, recurse
        rw [if_neg hp] at hwc
        cases hnf : nextFrame pmm with
        | error e => rw [hnf] at hwc; cases hwc
        | ok pair =>
          obtain ⟨f, pmm2⟩ := pair
          rw [hnf] at hwc
          obtain ⟨hffree, hpmm2⟩ := nextFrame_ok hnf
          have hflen := getD_false_lt_length hffree
          have hpathstep : pathList page td (d + 1) h t = [t] := by
            rw [pathList, if_neg hnle, if_neg hp]
          have hmemt : pmm.get t = true := by
            apply hmem; rw [hpathstep]; exact List.mem_singleton.mpr rfl
          have hgetf : pmm.get f = false := hffree
          have htf : t ≠ f := by
            intro hc; rw [hc, hgetf] at hmemt; cases hmemt
          have hmono2 : ∀ u, pmm.get u = true → pmm2.get u = true := by
            intro u hu
            have huf : u ≠ f := by intro hc; rw [hc, hgetf] at hu; cases hu
            subst hpmm2
            show (pmm.bits.set f true).getD u true = true
            rw [getD_set_of_ne _ _ _ _ _ (fun hc => huf hc.symm)]
            exact hu
          have hgetf2 : pmm2.get f = true := by
            subst hpmm2
            show (pmm.bits.set f true).getD f true = true
            exact getD_set_self pmm.bits f true true hflen
          have hd1 : 1 ≤ d := by omega
          obtain ⟨d2, hd2⟩ : ∃ d2, d = d2 + 1 := ⟨d - 1, by omega⟩
          set h3 := updEntry (Function.update h f zeroTable) t (pageIndexAt page (d + 1)) ⟨f, .puw⟩
            with hh3
          have hh3f : h3 f = zeroTable := by
            rw [hh3, updEntry_other_table (fun hc => htf hc.symm)]
            exact Function.update_same f zeroTable h
          have hh3t : h3 t = Function.update ((Function.update h f zeroTable) t)
              (pageIndexAt page (d + 1)) ⟨f, .puw⟩ := by
            rw [hh3, updEntry]
            exact Function.update_same t _ _
          have hh3tidx : h3 t (pageIndexAt page (d + 1)) = ⟨f, .puw⟩ := by
            rw [hh3]
            exact updEntry_same_idx _ t _ _
          have hchildpath : pathList page td d h3 f = [f] := by
            rw [hd2, pathList]
            by_cases hle2 : d2 + 1 ≤ td
            · rw [if_pos hle2]
            · rw [if_neg hle2, hh3f]
              simp [zeroTable, PTE.zero, TableEntryFlags.empty]
          have hchildclear : clearPath page td d h3 f = true := by
            rw [hd2, clearPath]
            by_cases hle2 : d2 + 1 ≤ td
            · rw [if_pos hle2]
            · rw [if_neg hle2, hh3f]
              simp [zeroTable, PTE.zero, TableEntryFlags.empty]
          obtain ⟨W2, Wn2, P2, TL2, MONO2⟩ := ih h3 pmm2 f h1 pmm1 t1 hwc
            (by rw [hchildpath]; exact List.nodup_singleton f)
            (by rw [hchildpath]; intro u hu; rw [List.mem_singleton.mp hu]; exact hgetf2)
            hchildclear
          have htne : t ≠ t1 := by
            cases TL2.2 with
            | inl hin =>
              rw [hchildpath] at hin
              rw [List.mem_singleton.mp hin] at *
              exact htf
            | inr hfree =>
              intro hc
              rw [← hc] at hfree
              rw [hmono2 t hmemt] at hfree
              cases hfree
          have hh1t : h1 t = h3 t := by
            apply P2 t (hmono2 t hmemt)
            rw [hchildpath]
            intro hc
            exact htf (List.mem_singleton.mp hc)
          have hHt : ∀ e : PTE, updEntry h1 t1 (pageIndexAt page td) e t = h3 t := by
            intro e
            rw [updEntry_other_table htne, hh1t]
          have hHtidx : ∀ e : PTE,
              updEntry h1 t1 (pageIndexAt page td) e t (pageIndexAt page (d + 1)) =
                (⟨f, .puw⟩ : PTE) := by
            intro e
            rw [hHt e, hh3tidx]
          refine ⟨?_, ?_, ?_, ?_, fun u hu => MONO2 u (hmono2 u hu)⟩
          · intro e
            rw [walkLoc]
            simp only [hHtidx e]
            rw [if_neg (by simp [TableEntryFlags.puw]), if_neg htd]
            exact W2 e
          · intro e hpE hprov
            rw [walkLoc]
            simp only [hHtidx e]
            rw [if_neg (by simp [TableEntryFlags.puw]),
              if_neg (by
                intro hc
                cases hc with
                | inl h1eq => omega
                | inr hh => simp [TableEntryFlags.puw] at hh)]
            exact Wn2 e hpE hprov
          · intro u hu humem
            rw [hpathstep] at humem
            have hut : u ≠ t := fun hc => humem (hc ▸ List.mem_singleton.mpr rfl)
            have huf : u ≠ f := by intro hc; rw [hc, hgetf] at hu; cases hu
            rw [P2 u (hmono2 u hu) (by
              rw [hchildpath]
              intro hc
              exact huf (List.mem_singleton.mp hc))]
            rw [hh3, updEntry_other_table hut, Function.update_noteq huf]
          · refine ⟨TL2.1, ?_⟩
            cases TL2.2 with
            | inl hin =>
              rw [hchildpath] at hin
              rw [List.mem_singleton.mp hin]
              exact Or.inr hgetf
            | inr hfree =>
              right
              cases hq : pmm.get t1 with
              | false => rfl
              | true => rw [hmono2 t1 hq] at hfree; cases hfree

theorem updEntry_collapse (h : Heap) (t i : Nat) (a b : PTE) :
    updEntry (updEntry h t i a) t i b = updEntry h t i b := by
  funext u j
  by_cases hu : u = t
  · subst hu
    by_cases hj : j = i
    · subst hj
      simp [updEntry]
    · simp [updEntry, Function.update_noteq hj]
  · simp [updEntry, Function.update_noteq hu]

theorem contains_refl (f : TableEntryFlags) : f.contains f = true := by
  rw [TableEntryFlags.contains]
  cases f.present <;> cases f.write <;> cases f.user <;> cases f.writeThrough <;>
    cases f.cacheDisable <;> cases f.accessed <;> cases f.dirty <;> cases f.huge <;>
    cases f.globalPage <;> cases f.noExecute <;> rfl

instance (s : MapperState) (page td : Nat) : Decidable (MapperInv s page td) := by
  unfold MapperInv
  infer_instance

/-- C1: Mapper round-trip. For every page, frame, page-table depth and
flag set containing `PRESENT`, on a mapper whose walk path for the page is
well formed (`MapperInv`), after a successful
`map(page, depth, frame, lock, flags)` the page is mapped at that depth,
`get_mapped_to` returns the frame, `get_page_attributes` returns a flag
set containing the requested flags, and after a subsequent successful
`unmap(page, depth, _)` the page is no longer mapped at that depth.
Modelled from the spec: `mem/paging/mod.rs` is absent from the sources, so
the page-table walks follow the spec, section 4.4. -/
theorem mapper_round_trip (s : MapperState) (page td F : Nat) (lock : Bool)
    (Phi : TableEntryFlags) (s2 : MapperState)
    (hinv : MapperInv s page td)
    (hpres : Phi.present = true)
    (hmap : s.map page td F lock Phi = .ok s2) :
    s2.isMapped page (some td) = true
    ∧ s2.getMappedTo page = some F
    ∧ (∃ fl, s2.getPageAttributes page = some fl ∧ fl.contains Phi = true)
    ∧ ∀ (freeFlag : Bool) (s3 : MapperState),
        s2.unmap page (some td) freeFlag = .ok s3 →
          s3.isMapped page (some td) = false := by
  obtain ⟨hnodup, hmem, hclear⟩ := hinv
  rw [MapperState.map] at hmap
  cases hlk : (if lock then (lockFrame s.pmm F).mapError PagingError.pmm else .ok s.pmm) with
  | error e => rw [hlk] at hmap; dsimp only at hmap; cases hmap
  | ok pmm0 =>
    rw [hlk] at hmap
    dsimp only at hmap
    have hmono0 : ∀ u, s.pmm.get u = true → pmm0.get u = true := by
      intro u hu
      by_cases hl : lock
      · rw [if_pos hl] at hlk
        cases hlf : lockFrame s.pmm F with
        | error e2 => rw [hlf] at hlk; cases hlk
        | ok pl =>
          rw [hlf] at hlk
          cases hlk
          obtain ⟨hFb, hFfree, hpl⟩ := lockFrame_ok hlf
          subst hpl
          have huF : u ≠ F := by
            intro hc
            rw [hc] at hu
            rw [FrameState.get, hFfree] at hu
            cases hu
          show (s.pmm.bits.set F true).getD u true = true
          rw [getD_set_of_ne _ _ _ _ _ (fun hc => huF hc.symm)]
          exact hu
      · rw [if_neg hl] at hlk
        cases hlk
        exact hu
    cases hwc : walkCreate page td maxDepth s.heap pmm0 s.root with
    | error e => rw [hwc] at hmap; dsimp only at hmap; cases hmap
    | ok trip =>
      obtain ⟨h1, rest1⟩ := trip
      obtain ⟨pmm1, t1⟩ := rest1
      rw [hwc] at hmap
      dsimp only at hmap
      have htdpos := walkCreate_ok_pos page td maxDepth s.heap pmm0 s.root (h1, pmm1, t1) hwc
      by_cases hhg : 1 < td ∧ Phi.huge = false
      · rw [if_pos hhg] at hmap; cases hmap
      · rw [if_neg hhg] at hmap
        cases hmap
        obtain ⟨W, Wn, P, TL, MONO⟩ := walkCreate_spec page td maxDepth s.heap pmm0 s.root
          h1 pmm1 t1 hwc hnodup (fun u hu => hmono0 u (hmem u hu)) hclear
        have hprov : td = 1 ∨ Phi.huge = true := by
          by_cases h1td : td = 1
          · exact Or.inl h1td
          · right
            cases hq : Phi.huge with
            | true => rfl
            | false => exact absurd ⟨by omega, hq⟩ hhg
        have hWF := W ⟨F, Phi⟩
        rw [if_pos hpres] at hWF
        have hWnF := Wn ⟨F, Phi⟩ hpres hprov
        refine ⟨?_, ?_, ?_, ?_⟩
        · rw [MapperState.isMapped]
          dsimp only
          rw [hWF]
          rfl
        · rw [MapperState.getMappedTo]
          dsimp only
          rw [hWnF]
        · refine ⟨Phi, ?_, contains_refl Phi⟩
          rw [MapperState.getPageAttributes]
          dsimp only
          rw [hWnF]
        · intro freeFlag s3 hun
          rw [MapperState.unmap] at hun
          dsimp only at hun
          rw [hWF] at hun
          dsimp only at hun
          have hWclear := W ⟨0, Phi.removePresent⟩
          rw [if_neg (by simp [TableEntryFlags.removePresent])] at hWclear
          have hcollapse :
              updEntry (updEntry h1 t1 (pageIndexAt page td) ⟨F, Phi⟩) t1
                  (pageIndexAt page td) ⟨0, Phi.removePresent⟩ =
                updEntry h1 t1 (pageIndexAt page td) ⟨0, Phi.removePresent⟩ :=
            updEntry_collapse h1 t1 (pageIndexAt page td) _ _
          by_cases hfr : freeFlag = true
          · rw [if_pos hfr] at hun
            cases hff : freeFrame pmm1 F with
            | error pe => rw [hff] at hun; cases hun
            | ok pmm2 =>
              rw [hff] at hun
              cases hun
              rw [MapperState.isMapped]
              dsimp only
              rw [hcollapse, hWclear]
              rfl
          · rw [if_neg hfr] at hun
            cases hun
            rw [MapperState.isMapped]
            dsimp only
            rw [hcollapse, hWclear]
            rfl

/-- Concrete mapper for the C1 witness: zeroed tables, root frame `0`
locked in the PMM, five free frames available for intermediate tables. -/
def mapperW : MapperState :=
  { heap := fun _ _ => PTE.zero, root := 0,
    pmm := { bits := [true, false, false, false, false, false], totalFrames := 6 } }

/-- Present/write flag set for the C1 witness. -/
def flagsRW : TableEntryFlags :=
  { TableEntryFlags.empty with present := true, write := true }

/-- Witness for C1: mapping page `0x5000` at leaf depth to frame `5` on
the concrete mapper satisfies all hypotheses and round-trips. -/
theorem mapper_round_trip_witness :
    MapperInv mapperW 0x5000 1 ∧ flagsRW.present = true ∧
      ∃ s2, mapperW.map 0x5000 1 5 false flagsRW = .ok s2 ∧
        s2.isMapped 0x5000 (some 1) = true ∧ s2.getMappedTo 0x5000 = some 5 := by
  refine ⟨by decide, rfl, _, rfl, ?_, ?_⟩
  · exact (mapper_round_trip mapperW 0x5000 1 5 false flagsRW _ (by decide) rfl rfl).1
  · exact (mapper_round_trip mapperW 0x5000 1 5 false flagsRW _ (by decide) rfl rfl).2.1

/-! ## Scheduler (`task/scheduling.rs`) -/

/-- Hardware-pushed interrupt stack frame
(`arch/x86_64/structures/idt`, `InterruptStackFrame`). -/
structure InterruptStackFrame where
  ip : Nat
  cs : Nat
  rflags : Nat
  sp : Nat
  ss : Nat
deriving Repr, DecidableEq

/-- General-purpose register block (`task/context/x86_64.rs`). -/
structure Registers where
  rax : Nat
  rbx : Nat
  rcx : Nat
  rdx : Nat
  rdi : Nat
  rsi : Nat
  rbp : Nat
  r8 : Nat
  r9 : Nat
  r10 : Nat
  r11 : Nat
  r12 : Nat
  r13 : Nat
  r14 : Nat
  r15 : Nat
deriving Repr, DecidableEq

/-- Models `Registers::empty()`: every register zero. -/
def Registers.empty : Registers := ⟨0, 0, 0, 0, 0, 0, 0, 0, 0, 0, 0, 0, 0, 0, 0⟩

/-- A task, reduced to the fields the scheduler touches: its id, its saved
context (`context.0` is the interrupt stack frame, `context.1` the
registers) and its address space (identified by its root so that
`is_current` can be modelled against the active root). -/
structure Task where
  id : Nat
  context : InterruptStackFrame × Registers
  addressSpace : Nat
deriving Repr, DecidableEq

/-- Models `Scheduler` per-thread state: the enable flag, the per-thread idle
stack (modelled by its top address) and the currently running task. -/
structure Scheduler where
  enabled : Bool
  idleStackTop : Nat
  task : Option Task
deriving Repr, DecidableEq

/-- Result of a scheduling call: the scheduler, the global run queue, the
interrupt stack frame and register block written back into the interrupt
handler frame, the active address-space root, and the preemption wait that
was armed, in milliseconds (`LocalState::set_preemption_wait`). -/
structure SchedResult where
  sched : Scheduler
  queue : List Task
  isf : InterruptStackFrame
  regs : Registers
  cur : Nat
  armedMs : Nat
deriving Repr, DecidableEq

/-- Models `Scheduler::next_task`: pop the queue front and restore its context,
swapping its address space in if not current; on an empty queue install
the idle context (`wait_indefinite` as instruction pointer — passed as
`wi`, since the stub address is fixed at link time —, the idle-stack top
as stack pointer, zeroed registers). Always arm a 15 ms preemption wait. -/
def nextTask (wi : Nat) (sch : Scheduler) (q : List Task) (isf : InterruptStackFrame)
    (regs : Registers) (cur : Nat) : SchedResult :=
  match q with
  | t :: rest =>
    { sched := { sch with task := some t }, queue := rest,
      isf := t.context.1, regs := t.context.2,
      cur := if t.addressSpace ≠ cur then t.addressSpace else cur,
      armedMs := 15 }
  | [] =>
    { sched := sch, queue := [],
      isf := { isf with ip := wi, sp := sch.idleStackTop },
      regs := Registers.empty, cur := cur, armedMs := 15 }

/-- Models `Scheduler::interrupt_task`: snapshot the running task (if any) into
its context and push it to the back of the global run queue, then select
the next task. -/
def interruptTask (wi : Nat) (sch : Scheduler) (q : List Task) (isf : InterruptStackFrame)
    (regs : Registers) (cur : Nat) : SchedResult :=
  match sch.task with
  | some t =>
    nextTask wi { sch with task := none } (q ++ [{ t with context := (isf, regs) }]) isf regs cur
  | none => nextTask wi sch q isf regs cur

/-- One timer fire on a packaged state. -/
def fire (wi : Nat) (st : SchedResult) : SchedResult :=
  interruptTask wi st.sched st.queue st.isf st.regs st.cur

/-- Task `A` of the round-robin scenario. -/
def taskA : Task := ⟨1, (⟨11, 0, 0, 21, 0⟩, Registers.empty), 101⟩

/-- Task `B` of the round-robin scenario. -/
def taskB : Task := ⟨2, (⟨12, 0, 0, 22, 0⟩, Registers.empty), 102⟩

/-- Task `C` of the round-robin scenario. -/
def taskC : Task := ⟨3, (⟨13, 0, 0, 23, 0⟩, Registers.empty), 103⟩

/-- Initial scenario state: run queue `[A, B, C]`, no task running. -/
def schedScenario : SchedResult :=
  ⟨⟨true, 777, none⟩, [taskA, taskB, taskC], ⟨0, 0, 0, 0, 0⟩, Registers.empty, 0, 0⟩

/-- C3: Scheduler strict FIFO round-robin. `interrupt_task` pushes the
running task (if any, with its interrupt stack frame and registers
snapshotted) to the back of the global run queue and pops the front as
the new running task, restoring its context; starting from run queue
`[A, B, C]` with no task running, after the third timer fire the running
slot holds `C` and the queue is `[A, B]`, and after a fourth fire the
running task is `A` and the queue is `[B, C]`; when the queue is empty
the idle context is installed (`wait_indefinite` as instruction pointer,
the idle stack top as stack pointer, zeroed registers); in every case a
15 ms preemption wait is armed. -/
theorem scheduler_round_robin :
    (∀ (wi : Nat) (sch : Scheduler) (q : List Task) (isf : InterruptStackFrame)
        (regs : Registers) (cur : Nat) (t : Task), sch.task = some t →
      (interruptTask wi sch q isf regs cur).sched.task =
          (q ++ [{ t with context := (isf, regs) }]).head?
        ∧ (interruptTask wi sch q isf regs cur).queue =
          (q ++ [{ t with context := (isf, regs) }]).tail
        ∧ (interruptTask wi sch q isf regs cur).armedMs = 15)
    ∧ (∀ (wi : Nat) (sch : Scheduler) (q : List Task) (isf : InterruptStackFrame)
        (regs : Registers) (cur : Nat), sch.task = none →
      (interruptTask wi sch q isf regs cur).sched.task = q.head?
        ∧ (interruptTask wi sch q isf regs cur).queue = q.tail
        ∧ (interruptTask wi sch q isf regs cur).armedMs = 15)
    ∧ (∀ (wi : Nat) (sch : Scheduler) (isf : InterruptStackFrame) (regs : Registers)
        (cur : Nat) (t : Task) (rest : List Task), sch.task = none →
      (interruptTask wi sch (t :: rest) isf regs cur).isf = t.context.1
        ∧ (interruptTask wi sch (t :: rest) isf regs cur).regs = t.context.2)
    ∧ (∀ (wi : Nat) (sch : Scheduler) (isf : InterruptStackFrame) (regs : Registers)
        (cur : Nat), sch.task = none →
      (interruptTask wi sch [] isf regs cur).isf = { isf with ip := wi, sp := sch.idleStackTop }
        ∧ (interruptTask wi sch [] isf regs cur).regs = Registers.empty
        ∧ (interruptTask wi sch [] isf regs cur).armedMs = 15)
    ∧ ((fire 7 (fire 7 (fire 7 schedScenario))).sched.task = some taskC
        ∧ (fire 7 (fire 7 (fire 7 schedScenario))).queue = [taskA, taskB]
        ∧ (fire 7 (fire 7 (fire 7 (fire 7 schedScenario)))).sched.task = some taskA
        ∧ (fire 7 (fire 7 (fire 7 (fire 7 schedScenario)))).queue = [taskB, taskC]) := by
  refine ⟨?_, ?_, ?_, ?_, by decide⟩
  · intro wi sch q isf regs cur t ht
    cases q with
    | nil => simp [interruptTask, ht, nextTask]
    | cons t2 rest => simp [interruptTask, ht, nextTask]
  · intro wi sch q isf regs cur ht
    cases q with
    | nil => simp [interruptTask, ht, nextTask]
    | cons t2 rest => simp [interruptTask, ht, nextTask]
  · intro wi sch isf regs cur t rest ht
    exact ⟨by simp [interruptTask, ht, nextTask], by simp [interruptTask, ht, nextTask]⟩
  · intro wi sch isf regs cur ht
    refine ⟨by simp [interruptTask, ht, nextTask], by simp [interruptTask, ht, nextTask],
      by simp [interruptTask, ht, nextTask]⟩

/-- Witness for C3: the no-task branch applied at a concrete state. -/
theorem scheduler_round_robin_witness :
    (Scheduler.mk true 777 none).task = none ∧
      ((interruptTask 7 ⟨true, 777, none⟩ [taskA] ⟨0, 0, 0, 0, 0⟩ Registers.empty 0).sched.task =
          [taskA].head?
        ∧ (interruptTask 7 ⟨true, 777, none⟩ [taskA] ⟨0, 0, 0, 0, 0⟩ Registers.empty 0).queue =
          [taskA].tail
        ∧ (interruptTask 7 ⟨true, 777, none⟩ [taskA] ⟨0, 0, 0, 0, 0⟩ Registers.empty 0).armedMs =
          15) :=
  ⟨rfl, scheduler_round_robin.2.1 7 ⟨true, 777, none⟩ [taskA] ⟨0, 0, 0, 0, 0⟩
    Registers.empty 0 rfl⟩

/-! ## Interrupt descriptor table (`arch/x86_64/structures/idt`)

The stub addresses are fixed at link time; the model is parameterized by
the function `f` giving the stub address installed for each vector
(`__de_stub`, ..., `__irq_N_stub` as `f N`). -/

/-- An IDT entry, reduced to its handler address, present bit, interrupt
stack table index and privilege level (`idt/entry.rs`). -/
structure IdtEntry where
  addr : Nat
  present : Bool
  istIndex : Option Nat
  dpl : Nat
deriving Repr, DecidableEq

/-- Models `Entry::missing()`: non-present. -/
def IdtEntry.missing : IdtEntry := ⟨0, false, none, 0⟩

/-- Models `Entry::new(address)`: present, kernel code selector, DPL 0. -/
def IdtEntry.new (a : Nat) : IdtEntry := ⟨a, true, none, 0⟩

/-- Models `Entry::new_with_stack(address, ist)`. -/
def IdtEntry.newWithStack (a ist : Nat) : IdtEntry := ⟨a, true, some ist, 0⟩

/-- Models `Entry::new_with_privilege(address, dpl)`. -/
def IdtEntry.newWithPrivilege (a dpl : Nat) : IdtEntry := ⟨a, true, none, dpl⟩

/-- The 32 exception entries of `InterruptDescriptorTable::init`, in field
order (vector = position): `coprocessor_segment_overrun` (9), `_1` (15),
`cp_protection_exception` (21), `_2` (22..=27), `hv_injection_exception`
(28), `vmm_communication_exception` (29), `security_exception` (30) and
`_3` (31) are `Entry::missing()`; `debug` (1), `non_maskable_interrupt`
(2), `double_fault` (8) and `machine_check` (18) carry IST indices
0, 1, 2, 3. -/
def exceptionEntries (f : Nat → Nat) : List IdtEntry :=
  [IdtEntry.new (f 0), IdtEntry.newWithStack (f 1) 0, IdtEntry.newWithStack (f 2) 1,
   IdtEntry.new (f 3), IdtEntry.new (f 4), IdtEntry.new (f 5), IdtEntry.new (f 6),
   IdtEntry.new (f 7), IdtEntry.newWithStack (f 8) 2, IdtEntry.missing, IdtEntry.new (f 10),
   IdtEntry.new (f 11), IdtEntry.new (f 12), IdtEntry.new (f 13), IdtEntry.new (f 14),
   IdtEntry.missing, IdtEntry.new (f 16), IdtEntry.new (f 17), IdtEntry.newWithStack (f 18) 3,
   IdtEntry.new (f 19), IdtEntry.new (f 20), IdtEntry.missing, IdtEntry.missing,
   IdtEntry.missing, IdtEntry.missing, IdtEntry.missing, IdtEntry.missing, IdtEntry.missing,
   IdtEntry.missing, IdtEntry.missing, IdtEntry.missing, IdtEntry.missing]

/-- The 224-element `interrupts` array of `InterruptDescriptorTable::init`,
in source order: the `__irq_128_stub` entry (DPL 3, the syscall gate)
comes first, then the stubs for 32..=37, 39, 38 (swapped in the source),
40..=127 and 129..=255. -/
def interruptEntries (f : Nat → Nat) : List IdtEntry :=
  IdtEntry.newWithPrivilege (f 128) 3 ::
    ([32, 33, 34, 35, 36, 37, 39, 38] ++ List.range' 40 88 ++ List.range' 129 127).map
      (fun v => IdtEntry.new (f v))

/-- The full 256-entry table of `InterruptDescriptorTable::init`. -/
def idtInit (f : Nat → Nat) : List IdtEntry := exceptionEntries f ++ interruptEntries f

/-- Present bit of the entry at vector `v`. -/
def idtPresent (f : Nat → Nat) (v : Nat) : Bool :=
  ((idtInit f).getD v IdtEntry.missing).present

/-- The present set asserted by the IDT-coverage claim. -/
def c4ClaimedPresent (v : Nat) : Prop :=
  v ≤ 19 ∨ v = 21 ∨ (28 ≤ v ∧ v ≤ 30) ∨ (32 ≤ v ∧ v ≤ 255)

/-- Expected present bit of vector `v` as the code builds it. -/
def expectedPresentB (v : Nat) : Bool :=
  decide (v ≤ 8) || (decide (10 ≤ v) && decide (v ≤ 14)) ||
    (decide (16 ≤ v) && decide (v ≤ 20)) || decide (32 ≤ v)

/-- Counterexample for C4: the claim counts vector 21 as present and
vector 20 as absent, but the initialized table has
`cp_protection_exception` (21) missing and `virtualization` (20)
present. -/
theorem idt_coverage_counterexample :
    c4ClaimedPresent 21 ∧ idtPresent (fun v => v) 21 = false ∧
      ¬c4ClaimedPresent 20 ∧ idtPresent (fun v => v) 20 = true := by
  refine ⟨Or.inr (Or.inl rfl), by decide, ?_, by decide⟩
  intro hc
  rcases hc with h | h | h | h <;> omega

set_option maxRecDepth 100000 in
/-- C4 (amended): IDT coverage. In the initialized interrupt descriptor
table, exactly the vectors `{0..=8, 10..=14, 16..=20} ∪ {32..=255}` have
present entries; `{9, 15, 21..=31}` are absent. -/
theorem idt_coverage (f : Nat → Nat) (v : Nat) (hv : v < 256) :
    idtPresent f v = true ↔
      (v ≤ 8 ∨ (10 ≤ v ∧ v ≤ 14) ∨ (16 ≤ v ∧ v ≤ 20) ∨ 32 ≤ v) := by
  have hall : ((List.range 256).all fun i => idtPresent f i == expectedPresentB i) = true := by
    rfl
  rw [List.all_eq_true] at hall
  have h := hall v (List.mem_range.mpr hv)
  rw [beq_iff_eq] at h
  rw [h]
  simp only [expectedPresentB, Bool.or_eq_true, Bool.and_eq_true, decide_eq_true_eq]
  omega

/-- Witness for C4 at vector 20. -/
theorem idt_coverage_witness :
    20 < 256 ∧ (idtPresent (fun _ => 0) 20 = true ↔
      (20 ≤ 8 ∨ (10 ≤ 20 ∧ 20 ≤ 14) ∨ (16 ≤ 20 ∧ 20 ≤ 20) ∨ 32 ≤ 20)) :=
  ⟨by decide, idt_coverage (fun _ => 0) 20 (by decide)⟩

/-- Models `Index<u8> for InterruptDescriptorTable`: indices `32..=255` return
`interrupts[index - 32]`, anything below 32 panics (modelled as
`Except.error`). -/
def idtIndex (f : Nat → Nat) (i : Nat) : Except Unit IdtEntry :=
  if 32 ≤ i ∧ i ≤ 255 then .ok ((interruptEntries f).getD (i - 32) IdtEntry.missing)
  else .error ()

theorem getD_append_right {α : Type} (l1 l2 : List α) (n : Nat) (d : α)
    (h : l1.length ≤ n) : (l1 ++ l2).getD n d = l2.getD (n - l1.length) d := by
  simp [List.getD, List.getElem?_append_right h]

/-- C10: The IDT generic index operators panic for every index in
`0..=31` — including exception vectors that push no error code — and for
every index in `32..=255` return the entry `interrupts[index - 32]`,
which is the entry at table position `index`. -/
theorem idt_index_operator (f : Nat → Nat) (i : Nat) (hi : i ≤ 255) :
    (i < 32 → idtIndex f i = .error ())
    ∧ (32 ≤ i →
        idtIndex f i = .ok ((interruptEntries f).getD (i - 32) IdtEntry.missing)
        ∧ idtIndex f i = .ok ((idtInit f).getD i IdtEntry.missing)) := by
  constructor
  · intro hlt
    rw [idtIndex, if_neg (by omega)]
  · intro hge
    have hok : idtIndex f i = .ok ((interruptEntries f).getD (i - 32) IdtEntry.missing) := by
      rw [idtIndex, if_pos ⟨hge, hi⟩]
    refine ⟨hok, ?_⟩
    rw [hok, idtInit, getD_append_right _ _ _ _ (by
      show (exceptionEntries f).length ≤ i
      have : (exceptionEntries f).length = 32 := rfl
      omega)]
    have : (exceptionEntries f).length = 32 := rfl
    rw [this]

/-- Witness for C10 at indices 14 (page fault, pushes an error code; the
operator panics) and 40 (returns `interrupts[8]`). -/
theorem idt_index_operator_witness :
    ((14 ≤ 255 ∧ 14 < 32) ∧ idtIndex (fun v => v) 14 = .error ())
    ∧ ((40 ≤ 255 ∧ 32 ≤ 40) ∧
        idtIndex (fun v => v) 40 =
          .ok ((idtInit (fun v => v)).getD 40 IdtEntry.missing)) :=
  ⟨⟨⟨by decide, by decide⟩, (idt_index_operator (fun v => v) 14 (by decide)).1 (by decide)⟩,
   ⟨⟨by decide, by decide⟩, ((idt_index_operator (fun v => v) 40 (by decide)).2 (by decide)).2⟩⟩

/-! ## Klog syscall gate (`interrupts/syscall.rs`)

`Task::demand_map` lives in a task module not present under `src/`; the
gate only distinguishes `Ok`, `Err(AlreadyMapped)` and any other error, so
it is abstracted as a function from page address to one of those three
outcomes. UTF-8 validation is `core::str::from_utf8`, modelled by the
standard UTF-8 acceptance rules. -/

/-- Log severities used by the klog vectors (`log::Level`). -/
inductive LogLevel where
  | error
  | warn
  | info
  | debug
  | trace
deriving Repr, DecidableEq

/-- Outcome of one `task.demand_map(address)` call as the gate observes
it: success, the tolerated `Err(Error::AlreadyMapped)`, or any other
error. -/
inductive DemandMapResult where
  | ok
  | alreadyMapped
  | otherError
deriving Repr, DecidableEq

/-- The syscall errors of `libsys::syscall::Error` the gate returns. -/
inductive SyscallError where
  | invalidVector
  | noActiveTask
  | unmappedMemory
  | badUtf8
deriving Repr, DecidableEq

/-- Models `(start..stop).step_by(step)` as a list. -/
def stepRangeAux (stop step : Nat) : Nat → Nat → List Nat
  | _, 0 => []
  | cur, fuel + 1 => if cur < stop then cur :: stepRangeAux stop step (cur + step) fuel else []

/-- Models `(start..stop).step_by(step)` (fuel covers every iteration for
`step ≥ 1`). -/
def stepRange (start stop step : Nat) : List Nat :=
  stepRangeAux stop step start (stop - start + 1)

/-- Models `Address::<Page>::new_truncate`: truncate to page alignment. -/
def truncatePage (a : Nat) : Nat := a - a % pageSize

/-- The page addresses the klog gate demand-maps:
`(str_start..str_end).step_by(page_size()).map(Address::new_truncate)`. -/
def klogPages (ptr len : Nat) : List Nat :=
  (stepRange ptr (ptr + len) pageSize).map truncatePage

/-- Modelled from the claim wording: the base addresses of every page
covered by the byte range `[ptr, ptr + len)`. -/
def coveredPageAddrs (ptr len : Nat) : List Nat :=
  stepRange (truncatePage ptr) (ptr + len) pageSize

/-- UTF-8 continuation byte. -/
def isCont (b : Nat) : Bool := decide (0x80 ≤ b) && decide (b ≤ 0xBF)

/-- UTF-8 acceptance (RFC 3629 table, as `core::str::from_utf8` checks). -/
def validUtf8Aux : Nat → List Nat → Bool
  | _, [] => true
  | 0, _ :: _ => false
  | fuel + 1, b :: rest =>
    if b ≤ 0x7F then validUtf8Aux fuel rest
    else if b < 0xC2 then false
    else if b ≤ 0xDF then
      match rest with
      | b1 :: r2 => isCont b1 && validUtf8Aux fuel r2
      | [] => false
    else if b ≤ 0xEF then
      match rest with
      | b1 :: b2 :: r2 =>
        isCont b1 && isCont b2 &&
          (decide (b ≠ 0xE0) || decide (0xA0 ≤ b1)) &&
          (decide (b ≠ 0xED) || decide (b1 ≤ 0x9F)) &&
          validUtf8Aux fuel r2
      | _ => false
    else if b ≤ 0xF4 then
      match rest with
      | b1 :: b2 :: b3 :: r2 =>
        isCont b1 && isCont b2 && isCont b3 &&
          (decide (b ≠ 0xF0) || decide (0x90 ≤ b1)) &&
          (decide (b ≠ 0xF4) || decide (b1 ≤ 0x8F)) &&
          validUtf8Aux fuel r2
      | _ => false
    else false

/-- Validity of a byte sequence as UTF-8. -/
def validUtf8 (bytes : List Nat) : Bool := validUtf8Aux bytes.length bytes

/-- The gate's demand-map loop: issue `demand_map` for each page in order,
treating `Ok` and `AlreadyMapped` as success, stopping at the first other
error. Returns the pages for which a demand-map was issued and whether the
loop completed. -/
def demandMapLoop (dm : Nat → DemandMapResult) : List Nat → List Nat × Bool
  | [] => ([], true)
  | p :: rest =>
    match dm p with
    | .otherError => ([p], false)
    | _ =>
      let r := demandMapLoop dm rest
      (p :: r.1, r.2)

/-- Observable outcome of `process_klog`: the returned result, the pages
demand-mapped, and the emitted log message (severity and bytes), if any. -/
structure KlogOut where
  result : Except SyscallError Unit
  attempted : List Nat
  emitted : Option (LogLevel × List Nat)
deriving Repr

/-- Models `process_klog(level, ptr, len)`: requires a running task, demand-maps
the pages of `klogPages ptr len` (any non-`AlreadyMapped` failure becomes
`UnmappedMemory`), validates the `len` bytes at `ptr` (given as `bytes`)
as UTF-8, then emits the message at the requested severity. -/
def processKlog (lvl : LogLevel) (taskRunning : Bool) (dm : Nat → DemandMapResult)
    (ptr len : Nat) (bytes : List Nat) : KlogOut :=
  if taskRunning then
    match demandMapLoop dm (klogPages ptr len) with
    | (att, false) => ⟨.error .unmappedMemory, att, none⟩
    | (att, true) =>
      if validUtf8 bytes then ⟨.ok (), att, some (lvl, bytes)⟩
      else ⟨.error .badUtf8, att, none⟩
  else ⟨.error .noActiveTask, [], none⟩

/-- Counterexample for C5: with `ptr = 4095` and `len = 2` the byte range
covers pages `0` and `4096`, but the gate's loop steps by the page size
from the unaligned pointer and only demand-maps page `0`, still returning
`Ok`. -/
theorem klog_coverage_counterexample :
    (processKlog .info true (fun _ => .ok) 4095 2 [65, 66]).result = .ok ()
    ∧ (processKlog .info true (fun _ => .ok) 4095 2 [65, 66]).attempted = [0]
    ∧ coveredPageAddrs 4095 2 = [0, 4096]
    ∧ 4096 ∉ (processKlog .info true (fun _ => .ok) 4095 2 [65, 66]).attempted := by
  refine ⟨rfl, rfl, rfl, by decide⟩

theorem demandMapLoop_all_ok (dm : Nat → DemandMapResult) :
    ∀ l : List Nat, (∀ p ∈ l, dm p ≠ .otherError) → demandMapLoop dm l = (l, true) := by
  intro l
  induction l with
  | nil => intro _; rfl
  | cons p rest ih =>
    intro hall
    have hp := hall p (List.mem_cons_self p rest)
    rw [demandMapLoop]
    cases hdm : dm p with
    | otherError => exact absurd hdm hp
    | ok =>
      rw [ih (fun q hq => hall q (List.mem_cons_of_mem p hq))]
    | alreadyMapped =>
      rw [ih (fun q hq => hall q (List.mem_cons_of_mem p hq))]

theorem demandMapLoop_fails (dm : Nat → DemandMapResult) :
    ∀ l : List Nat, (∃ p ∈ l, dm p = .otherError) → (demandMapLoop dm l).2 = false := by
  intro l
  induction l with
  | nil => intro ⟨p, hp, _⟩; cases hp
  | cons p rest ih =>
    intro ⟨q, hq, hdm⟩
    rw [demandMapLoop]
    cases hdmp : dm p with
    | otherError => rfl
    | ok =>
      cases List.mem_cons.mp hq with
      | inl heq => rw [heq, hdmp] at hdm; cases hdm
      | inr hmem => dsimp only; exact ih ⟨q, hmem, hdm⟩
    | alreadyMapped =>
      cases List.mem_cons.mp hq with
      | inl heq => rw [heq, hdmp] at hdm; cases hdm
      | inr hmem => dsimp only; exact ih ⟨q, hmem, hdm⟩

theorem stepRangeAux_map_trunc (stop : Nat) : ∀ (fuel cur : Nat), cur % pageSize = 0 →
    (stepRangeAux stop pageSize cur fuel).map truncatePage =
      stepRangeAux stop pageSize cur fuel := by
  intro fuel
  induction fuel with
  | zero => intro cur _; rfl
  | succ fuel ih =>
    intro cur hcur
    rw [stepRangeAux]
    by_cases hlt : cur < stop
    · rw [if_pos hlt, List.map_cons, ih (cur + pageSize) (by simp [pageSize] at hcur ⊢; omega),
        truncatePage, hcur, Nat.sub_zero]
    · rw [if_neg hlt]
      rfl

/-- C5 (amended): Klog syscall contract. The gate demand-maps, in order,
the pages `truncate(ptr + k * page_size)` for `k < ceil(len / page_size)`
— exactly the pages covered by `[ptr, ptr + len)` when `ptr` is
page-aligned, but possibly omitting the final covered page when it is not
— treating `AlreadyMapped` as success; it returns `NoActiveTask` when no
task is running, `UnmappedMemory` when a demand-map fails for any other
reason, `BadUtf8` when the bytes are not valid UTF-8, and otherwise emits
the message at the requested severity and returns `Ok`. -/
theorem klog_contract (lvl : LogLevel) (dm : Nat → DemandMapResult) (ptr len : Nat)
    (bytes : List Nat) :
    (processKlog lvl false dm ptr len bytes).result = .error .noActiveTask
    ∧ ((∀ p ∈ klogPages ptr len, dm p ≠ .otherError) →
        (processKlog lvl true dm ptr len bytes).attempted = klogPages ptr len
        ∧ (validUtf8 bytes = true →
            (processKlog lvl true dm ptr len bytes).result = .ok ()
            ∧ (processKlog lvl true dm ptr len bytes).emitted = some (lvl, bytes))
        ∧ (validUtf8 bytes = false →
            (processKlog lvl true dm ptr len bytes).result = .error .badUtf8))
    ∧ ((∃ p ∈ klogPages ptr len, dm p = .otherError) →
        (processKlog lvl true dm ptr len bytes).result = .error .unmappedMemory)
    ∧ (ptr % pageSize = 0 → klogPages ptr len = coveredPageAddrs ptr len) := by
  refine ⟨rfl, ?_, ?_, ?_⟩
  · intro hall
    have hloop := demandMapLoop_all_ok dm (klogPages ptr len) hall
    rw [processKlog, if_pos rfl, hloop]
    refine ⟨?_, ?_, ?_⟩
    · cases hv : validUtf8 bytes <;> simp [hv]
    · intro hv; simp [hv]
    · intro hv; simp [hv]
  · intro hex
    have hloop := demandMapLoop_fails dm (klogPages ptr len) hex
    rw [processKlog, if_pos rfl]
    rcases hsplit : demandMapLoop dm (klogPages ptr len) with ⟨att, compl⟩
    rw [hsplit] at hloop
    dsimp only at hloop
    subst hloop
    rfl
  · intro halign
    rw [klogPages, coveredPageAddrs, stepRange, stepRange, truncatePage, halign,
      Nat.sub_zero, stepRangeAux_map_trunc (ptr + len) (ptr + len - ptr + 1) ptr halign]

/-- Witness for C5 at an aligned pointer covering two pages, all
demand-maps succeeding, valid UTF-8 bytes. -/
theorem klog_contract_witness :
    (∀ p ∈ klogPages 8192 4097, (fun _ => DemandMapResult.ok) p ≠ .otherError) ∧
      validUtf8 [72, 105] = true ∧ 8192 % pageSize = 0 ∧
      ((processKlog .info true (fun _ => .ok) 8192 4097 [72, 105]).attempted =
          klogPages 8192 4097
        ∧ (processKlog .info true (fun _ => .ok) 8192 4097 [72, 105]).result = .ok ()
        ∧ klogPages 8192 4097 = coveredPageAddrs 8192 4097) := by
  refine ⟨by decide, by decide, by decide, ?_, ?_, ?_⟩
  · exact (klog_contract .info (fun _ => .ok) 8192 4097 [72, 105]).2.1 (by decide) |>.1
  · exact ((klog_contract .info (fun _ => .ok) 8192 4097 [72, 105]).2.1 (by decide) |>.2.1
      (by decide)).1
  · exact (klog_contract .info (fun _ => .ok) 8192 4097 [72, 105]).2.2.2 (by decide)

/-! ## Stopwatch (`time/stopwatch.rs`) -/

/-- The ACPI PM timer frequency in Hz. -/
def pmFrequency : Nat := 3579545

/-- Models `ticks_per_us` exactly as `Stopwatch::init` computes it:
`3579545 / 1000 / 1000` in integer arithmetic, which is `3`. -/
def ticksPerUs : Nat := pmFrequency / 1000 / 1000

/-- The `spin_wait` loop. `maxValue` is the counter's published maximum
(`0xFF_FFFF` or `0xFFFF_FFFF`); `last` the previous reading; each element
of `deltas` is the number of real PM-timer ticks that elapse before the
next read, so the next reading is `(last + delta) % (maxValue + 1)` — the
counter advancing at the fixed frequency. The loop deducts the code's
elapsed estimate (`current - last`, or `current + (maxValue - last)` when
`last ≥ current`) from the remaining wait, exactly as the source does.
Returns the total real ticks elapsed when `spin_wait` returns, or `none`
if it is still spinning when the reading sequence ends. -/
def spinWaitLoop (maxValue : Nat) : Nat → Nat → List Nat → Option Nat
  | 0, _, _ => some 0
  | _ + 1, _, [] => none
  | w + 1, last, d :: rest =>
    let current := (last + d) % (maxValue + 1)
    let elapsed := if last < current then current - last else current + (maxValue - last)
    match spinWaitLoop maxValue (w + 1 - elapsed) current rest with
    | none => none
    | some t => some (d + t)

/-- Models `Stopwatch::spin_wait(duration)`: wait `duration_us * ticks_per_us`
ticks starting from the initial reading `r0`. -/
def spinWait (durationUs maxValue r0 : Nat) (deltas : List Nat) : Option Nat :=
  spinWaitLoop maxValue (durationUs * ticksPerUs) r0 deltas

/-- C6: evaluation of `spin_wait` at the failing inputs. A 10 µs wait
must block for at least `10 * 3579545 / 10^6 = 35` ticks minus one tick
of slop, but (a) when two consecutive readings are equal (no tick passed
between reads), the code's wraparound branch deducts the full counter
range and `spin_wait` returns after 0 real ticks, and (b) even with the
counter advancing one tick per read, the truncated `ticks_per_us = 3`
makes it return after 30 ticks. -/
theorem stopwatch_spin_wait_bug :
    (spinWait 10 0xFFFFFF 5 [0] = some 0 ∧ 0 + 1 < 10 * pmFrequency / 1000000)
    ∧ (spinWait 10 0xFFFFFF 0 (List.replicate 35 1) = some 30
        ∧ 30 + 1 < 10 * pmFrequency / 1000000) := by
  refine ⟨⟨by decide, by decide⟩, by decide, by decide⟩

/-! ## Local timer (`time/local_timer/x86_64.rs`) -/

/-- Models `LocalTimer`: TSC-deadline mode or LAPIC one-shot mode, with the
calibrated frequency in Hz. -/
inductive LocalTimerMode where
  | timestampCounter (frequency : Nat)
  | localApic (frequency : Nat)
deriving Repr, DecidableEq

/-- Models `local_timer::Error`. -/
inductive TimerError where
  | invalidWait
deriving Repr, DecidableEq

/-- The register write `set_wait` performs: an absolute value into
`IA32_TSC_DEADLINE`, or a countdown into the LAPIC initial-count
register. -/
inductive ArmedAction where
  | tscDeadline (value : Nat)
  | apicInitialCount (value : Nat)
deriving Repr, DecidableEq

/-- Largest `u64` value. -/
def u64Max : Nat := 2 ^ 64 - 1

/-- Largest `u32` value. -/
def u32Max : Nat := 2 ^ 32 - 1

/-- Models `LocalTimer::set_wait(duration)`: truncate the duration to whole
microseconds (`durationUs`), reject if the conversion or the
`checked_mul` of `(frequency / 1_000_000)` with it overflows, then write
the tick count. In TSC-deadline mode the code writes `wait_ticks` itself
(`IA32_TSC_DEADLINE::set(wait_ticks)`), not `rdtsc() + wait_ticks`. -/
def setWait (mode : LocalTimerMode) (durationUs : Nat) : Except TimerError ArmedAction :=
  match mode with
  | .timestampCounter freq =>
    if u64Max < durationUs then .error .invalidWait
    else if u64Max < freq / 1000000 * durationUs then .error .invalidWait
    else .ok (.tscDeadline (freq / 1000000 * durationUs))
  | .localApic freq =>
    if u32Max < durationUs then .error .invalidWait
    else if u32Max < freq / 1000000 * durationUs then .error .invalidWait
    else .ok (.apicInitialCount (freq / 1000000 * durationUs))

/-- Moment at which the armed action fires, given the current counter
value `now`: the TSC-deadline register fires when the timestamp counter
reaches the absolute value written into it, the LAPIC one-shot counts the
written value down from now. -/
def fireTime (now : Nat) : ArmedAction → Nat
  | .tscDeadline v => v
  | .apicInitialCount v => now + v

/-- C7: evaluation of `set_wait` at the failing input. In TSC-deadline
mode with a 3 MHz frequency, arming a 1000 µs wait writes the absolute
deadline `3000`; with the timestamp counter currently at `10^9` the
interrupt does not fire at `now + duration` (the deadline is already in
the past), whereas the LAPIC branch does fire at `now + ticks`. -/
theorem local_timer_set_wait_bug :
    setWait (.timestampCounter 3000000) 1000 = .ok (.tscDeadline 3000)
    ∧ fireTime 1000000000 (.tscDeadline 3000) ≠ 1000000000 + 3000
    ∧ (∀ v : Nat, fireTime 1000000000 (.apicInitialCount v) = 1000000000 + v) :=
  ⟨rfl, by decide, fun _ => rfl⟩

/-! ## x2APIC interrupt command (`devices/x2apic/interrupt_command.rs`) -/

/-- Models `InterruptDeliveryMode` (`devices/x2apic/mod.rs`). -/
inductive InterruptDeliveryMode where
  | fixed
  | lowPriority
  | systemManagement
  | nonMaskable
  | init
  | startUp
  | extInt
deriving Repr, DecidableEq

/-- Encoding of the delivery mode into bits 8..11 of the low word. -/
def deliveryCode : InterruptDeliveryMode → Nat
  | .fixed => 0
  | .lowPriority => 1
  | .systemManagement => 2
  | .nonMaskable => 4
  | .init => 5
  | .startUp => 6
  | .extInt => 7

/-- Models `InterruptDestinationMode`. -/
inductive InterruptDestinationMode where
  | physical
  | logical
deriving Repr, DecidableEq

/-- Bit 11 of the low word. -/
def destModeBit : InterruptDestinationMode → Nat
  | .physical => 0
  | .logical => 1

/-- Models `InterruptTriggerMode`. -/
inductive InterruptTriggerMode where
  | edge
  | level
deriving Repr, DecidableEq

/-- Bit 15 of the low word. -/
def triggerBit : InterruptTriggerMode → Nat
  | .edge => 0
  | .level => 1

/-- Models `InterruptAssertMode`. -/
inductive InterruptAssertMode where
  | deassert
  | assert
deriving Repr, DecidableEq

/-- Bit 14 of the low word. -/
def assertBit : InterruptAssertMode → Nat
  | .deassert => 0
  | .assert => 1

/-- Models `InterruptDestination` (the source names the last variant
`AllExclusingSelf`). -/
inductive InterruptDestination where
  | processor (id : Nat)
  | onlySelf
  | allIncludingSelf
  | allExclusingSelf
deriving Repr, DecidableEq

/-- The built interrupt command register value. -/
structure InterruptCommand where
  high : Nat
  low : Nat
deriving Repr, DecidableEq

/-- Models `InterruptCommand::new`: the three argument `assert!`s in source
order, then the destination match with its per-variant `assert!`s and
shorthand bits 18..20; a failed assertion (panic) is `Except.error`. -/
def interruptCommandNew (vector : Option Nat) (destination : InterruptDestination)
    (delivery : InterruptDeliveryMode) (destMode : InterruptDestinationMode)
    (trigger : InterruptTriggerMode) (assertMode : InterruptAssertMode) :
    Except Unit InterruptCommand :=
  if assertMode = .deassert ∧ delivery ≠ .init then .error ()
  else if assertMode = .deassert ∧ trigger ≠ .level then .error ()
  else if vector.isSome = true ∧ (delivery = .systemManagement ∨ delivery = .init) then
    .error ()
  else
    let lowBase := vector.getD 0 % 256 + deliveryCode delivery * 2 ^ 8 +
      destModeBit destMode * 2 ^ 11 + assertBit assertMode * 2 ^ 14 +
      triggerBit trigger * 2 ^ 15
    match destination with
    | .processor id =>
      if assertMode = .deassert then .error () else .ok ⟨id, lowBase⟩
    | .onlySelf =>
      if assertMode = .deassert then .error () else .ok ⟨0, lowBase + 1 * 2 ^ 18⟩
    | .allIncludingSelf => .ok ⟨0, lowBase + 2 * 2 ^ 18⟩
    | .allExclusingSelf =>
      if assertMode = .deassert then .error () else .ok ⟨0, lowBase + 3 * 2 ^ 18⟩

/-- Models `x2Apic::send_interrupt_command`: asserts that bits 8..11 of the low
word are not `0b001` (low-priority), then writes the register. -/
def sendInterruptCommand (cmd : InterruptCommand) : Except Unit Unit :=
  if cmd.low >>> 8 % 8 = 1 then .error () else .ok ()

/-- Counterexample for C8: constructing an `InterruptCommand` with
low-priority delivery mode succeeds — only `send_interrupt_command`
rejects it. -/
theorem ipi_validation_counterexample :
    (interruptCommandNew (some 33) (.processor 0) .lowPriority .physical .edge
      .assert).isOk = true := by decide

/-- C8 (amended): IPI validation. Constructing an `InterruptCommand`
rejects a de-assert assert-mode unless the delivery mode is INIT with
level trigger, and rejects a specified vector when the delivery mode is
SMI or INIT; low-priority delivery mode is accepted by construction and
rejected by `send_interrupt_command`. -/
theorem ipi_validation (vector : Option Nat) (dest : InterruptDestination)
    (delivery : InterruptDeliveryMode) (destMode : InterruptDestinationMode)
    (trigger : InterruptTriggerMode) (assertMode : InterruptAssertMode) :
    (assertMode = .deassert → ¬(delivery = .init ∧ trigger = .level) →
      (interruptCommandNew vector dest delivery destMode trigger assertMode).isOk = false)
    ∧ (vector.isSome = true →
        (delivery = .systemManagement ∨ delivery = .init) →
        (interruptCommandNew vector dest delivery destMode trigger assertMode).isOk = false)
    ∧ (∀ cmd : InterruptCommand,
        interruptCommandNew vector dest delivery destMode trigger assertMode = .ok cmd →
        delivery = .lowPriority → sendInterruptCommand cmd = .error ()) := by
  refine ⟨?_, ?_, ?_⟩
  · intro h1 h2
    subst h1
    rw [interruptCommandNew]
    by_cases hd : delivery = InterruptDeliveryMode.init
    · subst hd
      have ht : trigger ≠ .level := fun hc => h2 ⟨rfl, hc⟩
      rw [if_neg (by intro hc; exact hc.2 rfl), if_pos ⟨rfl, ht⟩]
      rfl
    · rw [if_pos ⟨rfl, hd⟩]
      rfl
  · intro hsome hdel
    rw [interruptCommandNew]
    by_cases c1 : assertMode = .deassert ∧ delivery ≠ .init
    · rw [if_pos c1]; rfl
    · rw [if_neg c1]
      by_cases c2 : assertMode = .deassert ∧ trigger ≠ .level
      · rw [if_pos c2]; rfl
      · rw [if_neg c2, if_pos ⟨hsome, hdel⟩]
        rfl
  · intro cmd hok hlp
    subst hlp
    cases assertMode with
    | deassert =>
      rw [interruptCommandNew, if_pos ⟨rfl, by intro hc; cases hc⟩] at hok
      cases hok
    | assert =>
      rw [interruptCommandNew, if_neg (by intro hc; cases hc.1),
        if_neg (by intro hc; cases hc.1),
        if_neg (by intro hc; rcases hc.2 with h | h <;> cases h)] at hok
      dsimp only at hok
      have hv : vector.getD 0 % 256 < 256 := Nat.mod_lt _ (by norm_num)
      cases dest with
      | processor id =>
        rw [if_neg (by intro hc; cases hc)] at hok
        cases hok
        cases destMode <;> cases trigger <;>
          rw [sendInterruptCommand, if_pos (by
            simp only [deliveryCode, destModeBit, assertBit, triggerBit,
              Nat.shiftRight_eq_div_pow]
            norm_num
            omega)]
      | onlySelf =>
        rw [if_neg (by intro hc; cases hc)] at hok
        cases hok
        cases destMode <;> cases trigger <;>
          rw [sendInterruptCommand, if_pos (by
            simp only [deliveryCode, destModeBit, assertBit, triggerBit,
              Nat.shiftRight_eq_div_pow]
            norm_num
            omega)]
      | allIncludingSelf =>
        cases hok
        cases destMode <;> cases trigger <;>
          rw [sendInterruptCommand, if_pos (by
            simp only [deliveryCode, destModeBit, assertBit, triggerBit,
              Nat.shiftRight_eq_div_pow]
            norm_num
            omega)]
      | allExclusingSelf =>
        rw [if_neg (by intro hc; cases hc)] at hok
        cases hok
        cases destMode <;> cases trigger <;>
          rw [sendInterruptCommand, if_pos (by
            simp only [deliveryCode, destModeBit, assertBit, triggerBit,
              Nat.shiftRight_eq_div_pow]
            norm_num
            omega)]

/-- Witness for C8: a de-assert with `Fixed` delivery is rejected by
construction. -/
theorem ipi_validation_witness :
    (InterruptAssertMode.deassert = InterruptAssertMode.deassert
        ∧ ¬(InterruptDeliveryMode.fixed = .init ∧ InterruptTriggerMode.edge = .level))
    ∧ (interruptCommandNew none (.processor 0) .fixed .physical .edge .deassert).isOk =
      false :=
  ⟨⟨rfl, by intro hc; cases hc.1⟩,
    (ipi_validation none (.processor 0) .fixed .physical .edge .deassert).1 rfl
      (by intro hc; cases hc.1)⟩

end Linuiz

